import Mathlib

/-!
Verification of the kelvin HAMT (hash array mapped trie).

This file shallowly embeds the HAMT implementation found in
`src/structures/hamt/src/lib.rs` together with the parts of the surrounding
framework it depends on (`src/src/map.rs`, `src/src/search.rs`,
`src/src/compound.rs`).  The `Handle` cell type and the `Branch` walker live
in files of this repository that are not part of the provided sources; where
their behaviour matters it is modelled from the specification, and the
corresponding definitions say so in their doc comments.

Modelling decisions:
  * A tree node is a `List (Handle K V)` of length 16 (`N_BUCKETS`).
  * Machine integers (`u64` hashes, `u16` masks, `usize` slots) are `Nat`
    with explicit shifting/masking exactly as in the source.
  * The SeaHash hasher is external to the repository; it is modelled as a
    pair of abstract functions `hashK : K → Nat` (hashing a key) and
    `hashN : Nat → Nat` (re-hashing a `u64` value, used by
    `calculate_slot` when the depth budget is exhausted).
  * All recursive operations take explicit fuel and return `none` when the
    fuel runs out, so that every definition is executable by the kernel.
    For `searchT` and `subRemove` (which descend the existing finite tree)
    fuel exceeding the tree height is proved sufficient; `sub_insert`
    recurses on freshly allocated nodes during a split and is genuinely
    non-terminating on full hash collisions, which is material to the
    collision claims.
  * In-memory trees contain no `Shared` handles, so the pure model has no
    I/O errors.  A separate error-instrumented model `subInsertE` makes the
    fault points (`Handle::inner_mut`) explicit for the claims about
    partial mutation under I/O failure.
-/

set_option maxHeartbeats 1000000
set_option linter.unusedSectionVars false
set_option linter.unusedVariables false

namespace Kelvin

/-- Number of buckets of a HAMT node (`N_BUCKETS` in the source). -/
def nBuckets : Nat := 16

/-- A child cell of a HAMT node.  This is the in-memory fragment of the
four-state `Handle` of the framework: `hnone` is `Handle::None`, `hleaf`
is an inline `Handle::Leaf(KV)`, `hnode` an inline `Handle::Node`.
`Shared` handles (content-addressed, lazily faulted in) do not occur in
trees built purely in memory and are treated in the persistence model. -/
inductive Handle (K V : Type) where
  | hnone : Handle K V
  | hleaf (k : K) (v : V) : Handle K V
  | hnode (c : List (Handle K V)) : Handle K V

variable {K V : Type}

/-- The slot array of a freshly created empty HAMT node (`HAMT::new`). -/
def empty16 : List (Handle K V) := List.replicate 16 .hnone

/-- Loop body of `calculate_slot`: the `while depth >= 16` loop re-hashes
and reduces the depth; the iteration count is bounded by `depth` itself,
which serves as structural fuel (each iteration requires `16 ≤ depth` and
reduces `depth` by 16, so `depth` iterations always suffice). -/
def csAux (hashN : Nat → Nat) : Nat → Nat → Nat → Nat
  | 0, h, depth => (h >>> (depth * 4)) % 16
  | f + 1, h, depth =>
    if 16 ≤ depth then csAux hashN f (hashN h) (depth - 16)
    else (h >>> (depth * 4)) % 16

/-- Slot selection, translated from `calculate_slot` in
`src/structures/hamt/src/lib.rs`: while the depth is at least 16 the hash
is re-hashed and the depth reduced by 16; then 4 bits of the hash are
selected via shift (`h >> (depth * 4)`) and mask (`& 0x0f`). -/
def calculate_slot (hashN : Nat → Nat) (h depth : Nat) : Nat :=
  csAux hashN depth h depth

mutual

/-- Height of a handle (0 for empty slots and leaves). -/
def hheight : Handle K V → Nat
  | .hnone => 0
  | .hleaf _ _ => 0
  | .hnode c => sheight c + 1

/-- Height of a slot array: maximum height of its handles. -/
def sheight : List (Handle K V) → Nat
  | [] => 0
  | h :: t => max (hheight h) (sheight t)

end

mutual

/-- Keys of all leaves stored below a handle. -/
def handleKeys : Handle K V → List K
  | .hnone => []
  | .hleaf k _ => [k]
  | .hnode c => slotsKeys c

/-- Keys of all leaves stored below a slot array. -/
def slotsKeys : List (Handle K V) → List K
  | [] => []
  | x :: t => handleKeys x ++ slotsKeys t

end

theorem hheight_le_of_mem {x : Handle K V} {l : List (Handle K V)}
    (hm : x ∈ l) : hheight x ≤ sheight l := by
  induction l with
  | nil => cases hm
  | cons a t ih =>
    rcases List.mem_cons.mp hm with h | h
    · subst h; exact Nat.le_max_left _ _
    · exact Nat.le_trans (ih h) (Nat.le_max_right _ _)

theorem getD_eq_default_or_mem (l : List (Handle K V)) (n : Nat)
    (d : Handle K V) : l.getD n d = d ∨ l.getD n d ∈ l := by
  induction l generalizing n with
  | nil => left; rfl
  | cons a t ih =>
    cases n with
    | zero => right; exact List.mem_cons_self _ _
    | succ m =>
      rcases ih m with h | h
      · left; exact h
      · right; exact List.mem_cons_of_mem _ h

theorem sheight_lt_of_getD {slots : List (Handle K V)} {s : Nat}
    {c : List (Handle K V)}
    (hm : slots.getD s .hnone = .hnode c) : sheight c < sheight slots := by
  rcases getD_eq_default_or_mem slots s .hnone with h | h
  · rw [hm] at h; cases h
  · rw [hm] at h
    have := hheight_le_of_mem h
    simp only [hheight] at this
    omega

theorem handleKeys_subset_of_mem {x : Handle K V} {l : List (Handle K V)}
    (hm : x ∈ l) : ∀ k, k ∈ handleKeys x → k ∈ slotsKeys l := by
  induction l with
  | nil => cases hm
  | cons a t ih =>
    intro k hk
    rcases List.mem_cons.mp hm with h | h
    · subst h; exact List.mem_append_left _ hk
    · exact List.mem_append_right _ (ih h k hk)

theorem keys_getD_subset (slots : List (Handle K V)) (s : Nat) :
    ∀ k, k ∈ handleKeys (slots.getD s .hnone) → k ∈ slotsKeys slots := by
  intro k hk
  rcases getD_eq_default_or_mem slots s .hnone with h | h
  · rw [h] at hk; cases hk
  · exact handleKeys_subset_of_mem h k hk

/-- Basic fact: `List.set` at the index read back by `getD` gives the new
value when the index is in bounds. -/
theorem getD_set_self {l : List (Handle K V)} {i : Nat}
    (hi : i < l.length) (x d : Handle K V) : (l.set i x).getD i d = x := by
  induction l generalizing i with
  | nil => simp at hi
  | cons a t ih =>
    cases i with
    | zero => rfl
    | succ m => exact ih (Nat.lt_of_succ_lt_succ hi)

theorem getD_set_ne {l : List (Handle K V)} {i j : Nat} (hij : i ≠ j)
    (x d : Handle K V) : (l.set i x).getD j d = l.getD j d := by
  induction l generalizing i j with
  | nil => rfl
  | cons a t ih =>
    cases i with
    | zero =>
      cases j with
      | zero => exact absurd rfl hij
      | succ n => rfl
    | succ m =>
      cases j with
      | zero => rfl
      | succ n =>
        exact ih (show m ≠ n from fun hc => hij (congrArg Nat.succ hc))

/-- Setting a slot to the value it already holds is the identity (also
when the index is out of bounds, where `set` is a no-op). -/
theorem set_getD_self (l : List (Handle K V)) (i : Nat) :
    l.set i (l.getD i .hnone) = l := by
  induction l generalizing i with
  | nil => rfl
  | cons a t ih =>
    cases i with
    | zero => rfl
    | succ m =>
      show a :: t.set m (t.getD m .hnone) = a :: t
      rw [ih]

theorem length_set (l : List (Handle K V)) (i : Nat) (x : Handle K V) :
    (l.set i x).length = l.length := List.length_set l i x

theorem getD_replicate (s : Nat) :
    (empty16 (K := K) (V := V)).getD s .hnone = .hnone := by
  rcases getD_eq_default_or_mem empty16 s .hnone with h | h
  · exact h
  · exact List.eq_of_mem_replicate h

mutual

/-- Well-formedness of a handle: every node below it has exactly 16
slots (the fixed `[Handle<Self, H>; N_BUCKETS]` array of the source). -/
def hWf : Handle K V → Bool
  | .hnone => true
  | .hleaf _ _ => true
  | .hnode c => (c.length == 16) && sWf c

/-- Well-formedness of a slot array's children. -/
def sWf : List (Handle K V) → Bool
  | [] => true
  | x :: t => hWf x && sWf t

end

theorem mem_set_self {l : List (Handle K V)} {j : Nat} (hj : j < l.length)
    (x : Handle K V) : x ∈ l.set j x := by
  induction l generalizing j with
  | nil => simp at hj
  | cons a t ih =>
    cases j with
    | zero => exact List.mem_cons_self _ _
    | succ m =>
      exact List.mem_cons_of_mem _ (ih (Nat.lt_of_succ_lt_succ hj))

theorem hWf_of_mem {x : Handle K V} {l : List (Handle K V)} (hm : x ∈ l)
    (hwf : sWf l = true) : hWf x = true := by
  induction l with
  | nil => cases hm
  | cons a t ih =>
    simp only [sWf, Bool.and_eq_true] at hwf
    rcases List.mem_cons.mp hm with h | h
    · subst h; exact hwf.1
    · exact ih h hwf.2

theorem sWf_getD {l : List (Handle K V)} (hwf : sWf l = true) (j : Nat) :
    hWf (l.getD j .hnone) = true := by
  rcases getD_eq_default_or_mem l j .hnone with h | h
  · rw [h]; rfl
  · exact hWf_of_mem h hwf

theorem sWf_set {l : List (Handle K V)} (hwf : sWf l = true) {x : Handle K V}
    (hx : hWf x = true) (j : Nat) : sWf (l.set j x) = true := by
  induction l generalizing j with
  | nil => rfl
  | cons a t ih =>
    simp only [sWf, Bool.and_eq_true] at hwf
    cases j with
    | zero => simp only [List.set, sWf, Bool.and_eq_true]; exact ⟨hx, hwf.2⟩
    | succ m =>
      simp only [List.set, sWf, Bool.and_eq_true]
      exact ⟨hwf.1, ih hwf.2 m⟩

theorem some_pair_eq {α β : Type} {a a' : α} {b b' : β}
    (h : some (a, b) = some (a', b')) : a' = a ∧ b' = b := by
  injection h with h1
  exact ⟨(congrArg Prod.fst h1).symm, (congrArg Prod.snd h1).symm⟩

variable [DecidableEq K] (hashK : K → Nat) (hashN : Nat → Nat)

/-- Insertion, translated from `HAMT::sub_insert`.  `fuel` bounds the
recursion depth; `none` means the fuel was exhausted (the Rust function
would still be recursing).  The result carries the updated slot array and
the expelled value (`Ok(Option<V>)` in the source).  The three actions
correspond to `Action::Insert`, `Action::Replace` and `Action::Split`;
the `HandleMut::Node` arm recurses into the child.  In the split, the
slot is first emptied (`mem::replace(&mut self.0[s], Handle::new_empty())`),
the two key-value pairs are inserted into a fresh node (the displaced pair
with its own recomputed hash `old_h = hash(&key)`), and the new node is
written back as the last step. -/
def sub_insert (fuel depth h : Nat) (k : K) (v : V)
    (slots : List (Handle K V)) : Option (List (Handle K V) × Option V) :=
  match fuel with
  | 0 => none
  | fuel' + 1 =>
    let s := calculate_slot hashN h depth
    match slots.getD s .hnone with
    | .hnone => some (slots.set s (.hleaf k v), none)
    | .hleaf k' v' =>
      if k' = k then
        some (slots.set s (.hleaf k v), some v')
      else
        let slots0 := slots.set s .hnone
        match sub_insert fuel' (depth + 1) h k v empty16 with
        | none => none
        | some (n1, _) =>
          match sub_insert fuel' (depth + 1) (hashK k') k' v' n1 with
          | none => none
          | some (n2, _) => some (slots0.set s (.hnode n2), none)
    | .hnode c =>
      match sub_insert fuel' (depth + 1) h k v c with
      | none => none
      | some (c', r) => some (slots.set s (.hnode c'), r)

/-- Top-level insertion `HAMT::insert`: hashes the key and starts at
depth 0. -/
def insert (fuel : Nat) (k : K) (v : V) (t : List (Handle K V)) :
    Option (List (Handle K V) × Option V) :=
  sub_insert hashK hashN fuel 0 (hashK k) k v t

/-- Lookup, following `HAMTSearch::select` driven over the tree.
`HAMTSearch` computes the slot from the stored hash and depth, increments
the depth, and reports `SearchResult::Leaf(slot)` when the slot holds a
leaf with the sought key and `SearchResult::Path(slot)` otherwise.
Modelled from the spec: the `Branch` walker (whose source is not among the
provided files) descends on `Path` when the child is a node, and a `Path`
into an empty or non-matching-leaf slot is a failed search.  The outer
`none` is fuel exhaustion; fuel above the tree height always suffices. -/
def searchT (fuel depth h : Nat) (k : K) (slots : List (Handle K V)) :
    Option (Option V) :=
  match fuel with
  | 0 => none
  | fuel' + 1 =>
    match slots.getD (calculate_slot hashN h depth) .hnone with
    | .hnone => some none
    | .hleaf k' v' => if k' = k then some (some v') else some none
    | .hnode c => searchT fuel' (depth + 1) h k c

/-- Lookup of a key from the root, as `Map::get` does via `ValPath::new`
with a `HAMTSearch` built from the borrowed key. -/
def get (fuel : Nat) (k : K) (t : List (Handle K V)) : Option (Option V) :=
  searchT hashN fuel 0 (hashK k) k t

/-- Result of `HAMT::sub_remove` (`enum Removed`): nothing removed, a
removed leaf, or a removed leaf together with a leaf that the parent must
reinsert because the child collapsed to a singleton. -/
inductive Removed (K V : Type) where
  | rnone : Removed K V
  | rleaf (k : K) (v : V) : Removed K V
  | rcollapse (rk : K) (rv : V) (ik : K) (iv : V) : Removed K V

/-- Scan of `HAMT::remove_singleton`: walk the slots, remembering the
index of the first leaf; a second leaf or any node aborts with `none`
(the Rust early `return Ok(None)`); `some acc` is the completed scan. -/
def singletonScan : List (Handle K V) → Nat → Option Nat → Option (Option Nat)
  | [], _, acc => some acc
  | .hnone :: t, i, acc => singletonScan t (i + 1) acc
  | .hleaf _ _ :: t, i, none => singletonScan t (i + 1) (some i)
  | .hleaf _ _ :: _, _, some _ => none
  | .hnode _ :: _, _, _ => none

/-- Translation of `HAMT::remove_singleton`: if the node contains exactly
one leaf and no nodes, take the leaf out (`mem::take` leaves `None`) and
return it. -/
def removeSingleton (slots : List (Handle K V)) :
    Option ((K × V) × List (Handle K V)) :=
  match singletonScan slots 0 none with
  | some (some i) =>
    match slots.getD i .hnone with
    | .hleaf k v => some ((k, v), slots.set i .hnone)
    | _ => none
  | _ => none

/-- Epilogue of `HAMT::sub_remove`: at non-root depth, a singleton node
turns the result into `Removed::Collapse`; otherwise (and always at the
root) the removed leaf is reported as `Removed::Leaf`. -/
def afterRemove (depth : Nat) (rk : K) (rv : V)
    (slots : List (Handle K V)) : List (Handle K V) × Removed K V :=
  if 0 < depth then
    match removeSingleton slots with
    | some ((ik, iv), slots') => (slots', .rcollapse rk rv ik iv)
    | none => (slots, .rleaf rk rv)
  else (slots, .rleaf rk rv)

/-- Removal, translated from `HAMT::sub_remove`.  An empty slot or a leaf
with a different key returns `Removed::None` with the tree untouched; a
matching leaf is replaced by `None`; recursion into a node propagates
`None`/`Leaf` results unchanged (Rust `return Ok(a)`, skipping the
epilogue) and handles `Collapse` by replacing the child with the
reinserted leaf before running the epilogue.  The outer `none` is fuel
exhaustion; fuel above the tree height always suffices. -/
def subRemove (fuel depth h : Nat) (k : K) (slots : List (Handle K V)) :
    Option (List (Handle K V) × Removed K V) :=
  match fuel with
  | 0 => none
  | fuel' + 1 =>
    let s := calculate_slot hashN h depth
    match slots.getD s .hnone with
    | .hnone => some (slots, .rnone)
    | .hleaf k' v' =>
      if k' = k then some (afterRemove depth k' v' (slots.set s .hnone))
      else some (slots, .rnone)
    | .hnode c =>
      match subRemove fuel' (depth + 1) h k c with
      | none => none
      | some (_, .rcollapse rk rv ik iv) =>
        some (afterRemove depth rk rv (slots.set s (.hleaf ik iv)))
      | some (c', a) => some (slots.set s (.hnode c'), a)

/-- Top-level removal `HAMT::remove`: the `Removed::None` and
`Removed::Leaf` outcomes become `Ok(None)` and `Ok(Some(val))`; any other
outcome is the structurally `unreachable!()` branch, modelled by the
inner `none`.  The outer `none` is fuel exhaustion. -/
def remove (fuel : Nat) (k : K) (t : List (Handle K V)) :
    Option (Option (List (Handle K V) × Option V)) :=
  match subRemove hashN fuel 0 (hashK k) k t with
  | none => none
  | some (t', .rnone) => some (some (t', none))
  | some (t', .rleaf _ v) => some (some (t', some v))
  | some _ => some none

end Kelvin

namespace Kelvin

variable {K V : Type}

/-- Number of `Leaf` handles among the direct children of a node. -/
def leafCount : List (Handle K V) → Nat
  | [] => 0
  | .hleaf _ _ :: t => leafCount t + 1
  | _ :: t => leafCount t

/-- Number of `Node` handles among the direct children of a node. -/
def nodeCount : List (Handle K V) → Nat
  | [] => 0
  | .hnode _ :: t => nodeCount t + 1
  | _ :: t => nodeCount t

mutual

/-- No node below this handle (all of which are non-root nodes) holds
exactly one leaf and no nodes. -/
def hNoSingle : Handle K V → Bool
  | .hnone => true
  | .hleaf _ _ => true
  | .hnode c => (!(leafCount c == 1 && nodeCount c == 0)) && sNoSingle c

/-- No non-root node of the tree rooted at this slot array holds exactly
one leaf and no nodes (the slot array itself is the root and is exempt). -/
def sNoSingle : List (Handle K V) → Bool
  | [] => true
  | x :: t => hNoSingle x && sNoSingle t

end

end Kelvin

namespace Kelvin

variable {K V : Type}

theorem csAux_lt (hashN : Nat → Nat) (f h depth : Nat) :
    csAux hashN f h depth < 16 := by
  induction f generalizing h depth with
  | zero => exact Nat.mod_lt _ (by omega)
  | succ f ih =>
    simp only [csAux]
    split
    · exact ih _ _
    · exact Nat.mod_lt _ (by omega)

theorem calculate_slot_lt (hashN : Nat → Nat) (h depth : Nat) :
    calculate_slot hashN h depth < 16 := csAux_lt hashN depth h depth

theorem empty16_length : (empty16 (K := K) (V := V)).length = 16 :=
  List.length_replicate 16 _

/-- C10: For every 64-bit hash h and every depth, calculate_slot(h, depth)
returns a value strictly less than 16 (`N_BUCKETS`), so on any 16-slot
node array the index it produces — the only index `sub_insert`,
`sub_remove` and `HAMTSearch::select` ever use — is in bounds and
indexing never panics. -/
theorem C10_calculate_slot_in_bounds (hashN : Nat → Nat) (h depth : Nat) :
    calculate_slot hashN h depth < nBuckets ∧
      ∀ slots : List (Handle K V), slots.length = nBuckets →
        calculate_slot hashN h depth < slots.length := by
  refine ⟨calculate_slot_lt hashN h depth, ?_⟩
  intro slots hlen
  rw [hlen]
  exact calculate_slot_lt hashN h depth

theorem searchT_adequate [DecidableEq K] (hashN : Nat → Nat)
    (fuel depth h : Nat) (k : K) (slots : List (Handle K V))
    (hf : sheight slots < fuel) :
    (searchT hashN fuel depth h k slots).isSome = true := by
  induction fuel generalizing depth slots with
  | zero => omega
  | succ fuel ih =>
    simp only [searchT]
    split
    · rfl
    · split <;> rfl
    · next c heq =>
      exact ih (depth + 1) c
        (Nat.lt_of_lt_of_le (sheight_lt_of_getD heq) (Nat.lt_succ_iff.mp hf))

theorem subRemove_adequate [DecidableEq K] (hashN : Nat → Nat)
    (fuel depth h : Nat) (k : K) (slots : List (Handle K V))
    (hf : sheight slots < fuel) :
    (subRemove hashN fuel depth h k slots).isSome = true := by
  induction fuel generalizing depth slots with
  | zero => omega
  | succ fuel ih =>
    simp only [subRemove]
    split
    · rfl
    · split <;> rfl
    · next c heq =>
      have hc : (subRemove hashN fuel (depth + 1) h k c).isSome = true :=
        ih (depth + 1) c
          (Nat.lt_of_lt_of_le (sheight_lt_of_getD heq) (Nat.lt_succ_iff.mp hf))
      split
      · next heq2 => rw [heq2] at hc; cases hc
      · rfl
      · rfl

theorem subRemove_root_shape [DecidableEq K] (hashN : Nat → Nat)
    (fuel h : Nat) (k : K) (slots : List (Handle K V))
    (res : List (Handle K V) × Removed K V)
    (hres : subRemove hashN fuel 0 h k slots = some res) :
    res.2 = .rnone ∨ ∃ rk rv, res.2 = .rleaf rk rv := by
  cases fuel with
  | zero => cases hres
  | succ fuel =>
    simp only [subRemove] at hres
    split at hres
    · cases hres; left; rfl
    · split at hres
      · cases hres
        right
        simp only [afterRemove, if_neg (by omega : ¬ 0 < 0)]
        exact ⟨_, _, rfl⟩
      · cases hres; left; rfl
    · split at hres
      · cases hres
      · cases hres
        right
        simp only [afterRemove, if_neg (by omega : ¬ 0 < 0)]
        exact ⟨_, _, rfl⟩
      · next c1 a hnc heq2 =>
        cases hres
        cases a with
        | rnone => left; rfl
        | rleaf rk rv => right; exact ⟨rk, rv, rfl⟩
        | rcollapse rk rv ik iv => exact absurd rfl (fun hc => hnc rk rv ik iv hc)

/-- C4: For every key and every tree state satisfying the no-singleton
invariant, `sub_remove` called at depth 0 only ever produces
`Removed::None` or `Removed::Leaf`, never `Removed::Collapse`; hence the
`unreachable!()` arm of `HAMT::remove` (modelled as the inner `none` of
`remove`) is never executed.  The case analysis shows this holds for any
state, in particular for states satisfying the invariant. -/
theorem C4_root_never_collapses [DecidableEq K] (hashK : K → Nat)
    (hashN : Nat → Nat) (fuel : Nat) (k : K) (slots : List (Handle K V))
    (hinv : sNoSingle slots = true) :
    (∀ res, subRemove hashN fuel 0 (hashK k) k slots = some res →
      res.2 = .rnone ∨ ∃ rk rv, res.2 = .rleaf rk rv) ∧
    remove hashK hashN fuel k slots ≠ some none := by
  constructor
  · intro res hres
    exact subRemove_root_shape hashN fuel (hashK k) k slots res hres
  · intro hcon
    simp only [remove] at hcon
    cases hrem : subRemove hashN fuel 0 (hashK k) k slots with
    | none => rw [hrem] at hcon; cases hcon
    | some res =>
      obtain ⟨t', a⟩ := res
      rcases subRemove_root_shape hashN fuel (hashK k) k slots (t', a) hrem with
        h2 | ⟨rk, rv, h2⟩ <;>
      · simp only at h2
        subst h2
        rw [hrem] at hcon
        cases hcon

theorem subRemove_absent [DecidableEq K] (hashN : Nat → Nat)
    (fuel depth h : Nat) (k : K) (slots : List (Handle K V))
    (hk : k ∉ slotsKeys slots) (hf : sheight slots < fuel) :
    subRemove hashN fuel depth h k slots = some (slots, .rnone) := by
  induction fuel generalizing depth slots with
  | zero => omega
  | succ fuel ih =>
    simp only [subRemove]
    split
    · rfl
    · next k' v' heq =>
      have hk' : k' ∈ slotsKeys slots := by
        apply keys_getD_subset slots (calculate_slot hashN h depth)
        rw [heq]
        exact List.mem_singleton_self k'
      rw [if_neg (fun hc : k' = k => hk (hc ▸ hk'))]
    · next c heq =>
      have hkc : k ∉ slotsKeys c := by
        intro hc
        exact hk (keys_getD_subset slots _ k (by rw [heq]; exact hc))
      have hrec := ih (depth + 1) c hkc
        (Nat.lt_of_lt_of_le (sheight_lt_of_getD heq) (Nat.lt_succ_iff.mp hf))
      rw [hrec]
      have hset := set_getD_self slots (calculate_slot hashN h depth)
      rw [heq] at hset
      show some (slots.set (calculate_slot hashN h depth) (Handle.hnode c),
        Removed.rnone) = some (slots, Removed.rnone)
      rw [hset]

/-- C9: removing a key that is not present in the tree (never inserted,
or previously removed) returns `Ok(None)` and leaves the tree untouched. -/
theorem C9_remove_absent [DecidableEq K] (hashK : K → Nat)
    (hashN : Nat → Nat) (fuel : Nat) (k : K) (t : List (Handle K V))
    (hk : k ∉ slotsKeys t) (hf : sheight t < fuel) :
    remove hashK hashN fuel k t = some (some (t, none)) := by
  simp only [remove]
  rw [subRemove_absent hashN fuel 0 (hashK k) k t hk hf]

theorem sub_insert_empty [DecidableEq K] (hashK : K → Nat)
    (hashN : Nat → Nat) (fuel depth h : Nat) (k : K) (v : V) :
    sub_insert hashK hashN (fuel + 1) depth h k v empty16 =
      some (empty16.set (calculate_slot hashN h depth) (.hleaf k v), none) := by
  simp only [sub_insert, getD_replicate]

theorem collide_insert_loop [DecidableEq K] (hashK : K → Nat)
    (hashN : Nat → Nat) (h : Nat) (fuel depth : Nat) (ka kb : K) (va vb : V)
    (hne : ka ≠ kb) (hha : hashK ka = h) (hhb : hashK kb = h) :
    sub_insert hashK hashN fuel depth h ka va
      (empty16.set (calculate_slot hashN h depth) (.hleaf kb vb)) = none := by
  induction fuel generalizing depth ka kb va vb with
  | zero => rfl
  | succ fuel ih =>
    have hs : calculate_slot hashN h depth < (empty16 (K := K) (V := V)).length := by
      rw [empty16_length]; exact calculate_slot_lt hashN h depth
    simp only [sub_insert, getD_set_self hs]
    rw [if_neg (fun hc : kb = ka => hne hc.symm)]
    cases fuel with
    | zero => rfl
    | succ fuel' =>
      split
      · rfl
      · next n1 snd heq1 =>
        rw [sub_insert_empty hashK hashN fuel' (depth + 1) h ka va] at heq1
        cases heq1
        rw [hhb, ih (depth + 1) kb ka vb va (fun hc => hne hc.symm) hhb hha]

/-- C2: the claim asserts that inserting two distinct keys whose 64-bit
hashes are identical terminates with both keys retrievable, the depth-16
re-hash tolerating arbitrarily deep collision chains.  The code does not
satisfy this: after the first insert succeeds, the second insert splits
forever, because both keys select the same slot at every depth and the
depth-16 re-hash is applied to the identical hash value, reproducing the
identical slot sequence.  For every fuel bound the model returns `none`
(the Rust code recurses without terminating). -/
theorem C2_collision_insert_diverges [DecidableEq K] (hashK : K → Nat)
    (hashN : Nat → Nat) (k1 k2 : K) (v1 v2 : V) (hne : k1 ≠ k2)
    (hcol : hashK k1 = hashK k2) (fuel1 : Nat) (t1 : List (Handle K V))
    (r1 : Option V)
    (hins : insert hashK hashN fuel1 k1 v1 empty16 = some (t1, r1)) :
    ∀ fuel2, insert hashK hashN fuel2 k2 v2 t1 = none := by
  intro fuel2
  cases fuel1 with
  | zero => cases hins
  | succ fuel1 =>
    unfold insert at hins
    rw [sub_insert_empty hashK hashN fuel1 0 (hashK k1) k1 v1] at hins
    have ht1 : t1 = empty16.set (calculate_slot hashN (hashK k1) 0) (.hleaf k1 v1) := by
      cases hins; rfl
    subst ht1
    unfold insert
    rw [hcol]
    exact collide_insert_loop hashK hashN (hashK k2) fuel2 0 k2 k1 v2 v1
      (fun hc => hne hc.symm) rfl hcol

theorem sheight_empty16 : sheight (empty16 (K := K) (V := V)) = 0 := rfl

theorem searchT_empty [DecidableEq K] (hashN : Nat → Nat) (f depth h : Nat)
    (k : K) : searchT hashN (f + 1) depth h k (empty16 (K := K) (V := V)) =
      some none := by
  simp only [searchT, getD_replicate]

theorem searchT_fuel_irrel [DecidableEq K] (hashN : Nat → Nat) :
    ∀ (f f' depth h : Nat) (k : K) (c : List (Handle K V)),
      sheight c < f → sheight c < f' →
      searchT hashN f depth h k c = searchT hashN f' depth h k c := by
  intro f
  induction f with
  | zero => intro f' depth h k c h1; omega
  | succ f ih =>
    intro f' depth h k c h1 h2
    cases f' with
    | zero => omega
    | succ f' =>
      simp only [searchT]
      split
      · rfl
      · rfl
      · next cc heq =>
        have hlt := sheight_lt_of_getD heq
        exact ih f' (depth + 1) h k cc (by omega) (by omega)

theorem sub_insert_wf [DecidableEq K] (hashK : K → Nat) (hashN : Nat → Nat) :
    ∀ (fuel depth h : Nat) (k : K) (v : V)
      (slots slots' : List (Handle K V)) (r : Option V),
      sub_insert hashK hashN fuel depth h k v slots = some (slots', r) →
      slots.length = 16 → sWf slots = true →
      slots'.length = 16 ∧ sWf slots' = true := by
  intro fuel
  induction fuel with
  | zero => intro depth h k v slots slots' r hins; cases hins
  | succ fuel ih =>
    intro depth h k v slots slots' r hins hlen hwf
    simp only [sub_insert] at hins
    split at hins
    · obtain ⟨h1, h2⟩ := some_pair_eq hins
      subst h1
      exact ⟨by rw [length_set, hlen],
        sWf_set hwf (show hWf (Handle.hleaf k v) = true from rfl) _⟩
    · next k' v' heq =>
      split at hins
      · obtain ⟨h1, h2⟩ := some_pair_eq hins
        subst h1
        exact ⟨by rw [length_set, hlen],
          sWf_set hwf (show hWf (Handle.hleaf k v) = true from rfl) _⟩
      · split at hins
        · cases hins
        · next n1 r1 heq1 =>
          split at hins
          · cases hins
          · next n2 r2 heq2 =>
            obtain ⟨h1, h2⟩ := some_pair_eq hins
            subst h1
            have w1 := ih (depth + 1) h k v empty16 n1 r1 heq1 empty16_length rfl
            have w2 := ih (depth + 1) (hashK k') k' v' n1 n2 r2 heq2 w1.1 w1.2
            refine ⟨by rw [length_set, length_set, hlen], ?_⟩
            refine sWf_set
              (sWf_set hwf (show hWf (Handle.hnone (K := K) (V := V)) = true from rfl) _) ?_ _
            simp only [hWf, Bool.and_eq_true, beq_iff_eq]
            exact ⟨w2.1, w2.2⟩
    · next c heq =>
      split at hins
      · cases hins
      · next c' r' heqr =>
        obtain ⟨h1, h2⟩ := some_pair_eq hins
        subst h1
        have hcwf : hWf (Handle.hnode c) = true := by
          rw [← heq]; exact sWf_getD hwf _
        simp only [hWf, Bool.and_eq_true, beq_iff_eq] at hcwf
        have wc := ih (depth + 1) h k v c c' r' heqr hcwf.1 hcwf.2
        refine ⟨by rw [length_set, hlen], ?_⟩
        refine sWf_set hwf ?_ _
        simp only [hWf, Bool.and_eq_true, beq_iff_eq]
        exact ⟨wc.1, wc.2⟩

/-- Central lemma about insertion: inserting `k` (with its true hash)
makes `k` retrievable with the inserted value, and leaves the search
result of every other key untouched. -/
theorem sub_insert_search [DecidableEq K] (hashK : K → Nat) (hashN : Nat → Nat) :
    ∀ (fuel depth : Nat) (k : K) (v : V)
      (slots slots' : List (Handle K V)) (r : Option V),
      sub_insert hashK hashN fuel depth (hashK k) k v slots = some (slots', r) →
      slots.length = 16 → sWf slots = true →
      ((∀ f₂, sheight slots' < f₂ →
          searchT hashN f₂ depth (hashK k) k slots' = some (some v)) ∧
       (∀ k₂ : K, k₂ ≠ k → ∀ f₂ f₃, sheight slots' < f₂ → sheight slots < f₃ →
          searchT hashN f₂ depth (hashK k₂) k₂ slots' =
            searchT hashN f₃ depth (hashK k₂) k₂ slots)) := by
  intro fuel
  induction fuel with
  | zero => intro depth k v slots slots' r hins; cases hins
  | succ fuel ih =>
    intro depth k v slots slots' r hins hlen hwf
    have hs : calculate_slot hashN (hashK k) depth < slots.length := by
      rw [hlen]; exact calculate_slot_lt hashN _ depth
    simp only [sub_insert] at hins
    split at hins
    · -- Action::Insert: the slot was empty
      next heq =>
      obtain ⟨h1, h2⟩ := some_pair_eq hins
      subst h1
      constructor
      · intro f₂ hf₂
        cases f₂ with
        | zero => omega
        | succ f₂ =>
          simp only [searchT, getD_set_self hs]
          simp
      · intro k₂ hk₂ f₂ f₃ hf₂ hf₃
        cases f₂ with
        | zero => omega
        | succ f₂ =>
          cases f₃ with
          | zero => omega
          | succ f₃ =>
            by_cases hss : calculate_slot hashN (hashK k₂) depth =
                calculate_slot hashN (hashK k) depth
            · simp only [searchT, hss, getD_set_self hs, heq]
              rw [if_neg (fun hc => hk₂ hc.symm)]
            · have hne : calculate_slot hashN (hashK k) depth ≠
                  calculate_slot hashN (hashK k₂) depth :=
                fun hc => hss hc.symm
              simp only [searchT, getD_set_ne hne]
              split
              · rfl
              · rfl
              · next cc heq2 =>
                have hb3 := sheight_lt_of_getD heq2
                have hb2 : sheight cc < sheight (slots.set
                    (calculate_slot hashN (hashK k) depth) (.hleaf k v)) :=
                  sheight_lt_of_getD (by rw [getD_set_ne hne]; exact heq2)
                exact searchT_fuel_irrel hashN f₂ f₃ (depth + 1) (hashK k₂) k₂
                  cc (by omega) (by omega)
    · -- the slot held a leaf
      next k' v' heq =>
      split at hins
      · -- Action::Replace: same key
        next heqk =>
        obtain ⟨h1, h2⟩ := some_pair_eq hins
        subst h1
        constructor
        · intro f₂ hf₂
          cases f₂ with
          | zero => omega
          | succ f₂ =>
            simp only [searchT, getD_set_self hs]
            simp
        · intro k₂ hk₂ f₂ f₃ hf₂ hf₃
          cases f₂ with
          | zero => omega
          | succ f₂ =>
            cases f₃ with
            | zero => omega
            | succ f₃ =>
              by_cases hss : calculate_slot hashN (hashK k₂) depth =
                  calculate_slot hashN (hashK k) depth
              · simp only [searchT, hss, getD_set_self hs, heq]
                rw [if_neg (fun hc => hk₂ hc.symm),
                  if_neg (fun hc => hk₂ ((heqk.symm.trans hc).symm))]
              · have hne : calculate_slot hashN (hashK k) depth ≠
                    calculate_slot hashN (hashK k₂) depth :=
                  fun hc => hss hc.symm
                simp only [searchT, getD_set_ne hne]
                split
                · rfl
                · rfl
                · next cc heq2 =>
                  have hb3 := sheight_lt_of_getD heq2
                  have hb2 : sheight cc < sheight (slots.set
                      (calculate_slot hashN (hashK k) depth) (.hleaf k v)) :=
                    sheight_lt_of_getD (by rw [getD_set_ne hne]; exact heq2)
                  exact searchT_fuel_irrel hashN f₂ f₃ (depth + 1) (hashK k₂)
                    k₂ cc (by omega) (by omega)
      · -- Action::Split: distinct key in the slot
        next heqk =>
        split at hins
        · cases hins
        · next n1 r1 heq1 =>
          split at hins
          · cases hins
          · next n2 r2 heq2 =>
            obtain ⟨h1, h2⟩ := some_pair_eq hins
            subst h1
            have w1 := sub_insert_wf hashK hashN fuel (depth + 1) (hashK k) k v
              empty16 n1 r1 heq1 empty16_length rfl
            have ih1 := ih (depth + 1) k v empty16 n1 r1 heq1 empty16_length rfl
            have ih2 := ih (depth + 1) k' v' n1 n2 r2 heq2 w1.1 w1.2
            have hlen0 : (slots.set (calculate_slot hashN (hashK k) depth)
                Handle.hnone).length = 16 := by rw [length_set, hlen]
            have hs0 : calculate_slot hashN (hashK k) depth <
                (slots.set (calculate_slot hashN (hashK k) depth)
                  Handle.hnone).length := by
              rw [hlen0]; exact calculate_slot_lt hashN _ depth
            have hkk' : k ≠ k' := fun hc => heqk hc.symm
            constructor
            · intro f₂ hf₂
              cases f₂ with
              | zero => omega
              | succ f₂ =>
                have hgot : ((slots.set (calculate_slot hashN (hashK k) depth)
                    Handle.hnone).set (calculate_slot hashN (hashK k) depth)
                    (Handle.hnode n2)).getD
                    (calculate_slot hashN (hashK k) depth) .hnone =
                    Handle.hnode n2 := getD_set_self hs0 _ _
                simp only [searchT, hgot]
                have hb2 : sheight n2 < f₂ := by
                  have := sheight_lt_of_getD hgot
                  omega
                rw [ih2.2 k hkk' f₂ (sheight n1 + 1) hb2 (Nat.lt_succ_self _)]
                exact ih1.1 (sheight n1 + 1) (Nat.lt_succ_self _)
            · intro k₂ hk₂ f₂ f₃ hf₂ hf₃
              cases f₂ with
              | zero => omega
              | succ f₂ =>
                cases f₃ with
                | zero => omega
                | succ f₃ =>
                  by_cases hss : calculate_slot hashN (hashK k₂) depth =
                      calculate_slot hashN (hashK k) depth
                  · have hgot : ((slots.set
                        (calculate_slot hashN (hashK k) depth)
                        Handle.hnone).set
                        (calculate_slot hashN (hashK k) depth)
                        (Handle.hnode n2)).getD
                        (calculate_slot hashN (hashK k) depth) .hnone =
                        Handle.hnode n2 := getD_set_self hs0 _ _
                    simp only [searchT, hss, hgot, heq]
                    have hb2 : sheight n2 < f₂ := by
                      have := sheight_lt_of_getD hgot
                      omega
                    by_cases hk2k' : k' = k₂
                    · rw [if_pos hk2k', ← hk2k']
                      exact ih2.1 f₂ hb2
                    · rw [if_neg hk2k']
                      rw [ih2.2 k₂ (fun hc => hk2k' hc.symm) f₂
                        (sheight n1 + 1) hb2 (Nat.lt_succ_self _)]
                      rw [ih1.2 k₂ hk₂ (sheight n1 + 1) 1
                        (Nat.lt_succ_self _) (by rw [sheight_empty16]; omega)]
                      exact searchT_empty hashN 0 (depth + 1) (hashK k₂) k₂
                  · have hne : calculate_slot hashN (hashK k) depth ≠
                        calculate_slot hashN (hashK k₂) depth :=
                      fun hc => hss hc.symm
                    simp only [searchT, getD_set_ne hne]
                    split
                    · rfl
                    · rfl
                    · next cc heq2 =>
                      have hb3 := sheight_lt_of_getD heq2
                      have hb2 : sheight cc < sheight ((slots.set
                          (calculate_slot hashN (hashK k) depth)
                          Handle.hnone).set
                          (calculate_slot hashN (hashK k) depth)
                          (Handle.hnode n2)) :=
                        sheight_lt_of_getD
                          (by rw [getD_set_ne hne, getD_set_ne hne]; exact heq2)
                      exact searchT_fuel_irrel hashN f₂ f₃ (depth + 1)
                        (hashK k₂) k₂ cc (by omega) (by omega)
    · -- the slot held a node: recurse
      next c heq =>
      split at hins
      · cases hins
      · next c' r' heqr =>
        obtain ⟨h1, h2⟩ := some_pair_eq hins
        subst h1
        subst h2
        have hcwf : hWf (Handle.hnode c) = true := by
          rw [← heq]; exact sWf_getD hwf _
        simp only [hWf, Bool.and_eq_true, beq_iff_eq] at hcwf
        have ihc := ih (depth + 1) k v c c' r heqr hcwf.1 hcwf.2
        have hgot : (slots.set (calculate_slot hashN (hashK k) depth)
            (Handle.hnode c')).getD
            (calculate_slot hashN (hashK k) depth) .hnone =
            Handle.hnode c' := getD_set_self hs _ _
        constructor
        · intro f₂ hf₂
          cases f₂ with
          | zero => omega
          | succ f₂ =>
            simp only [searchT, hgot]
            have hb2 : sheight c' < f₂ := by
              have := sheight_lt_of_getD hgot
              omega
            exact ihc.1 f₂ hb2
        · intro k₂ hk₂ f₂ f₃ hf₂ hf₃
          cases f₂ with
          | zero => omega
          | succ f₂ =>
            cases f₃ with
            | zero => omega
            | succ f₃ =>
              by_cases hss : calculate_slot hashN (hashK k₂) depth =
                  calculate_slot hashN (hashK k) depth
              · simp only [searchT, hss, hgot, heq]
                have hb2 : sheight c' < f₂ := by
                  have := sheight_lt_of_getD hgot
                  omega
                have hb3 : sheight c < f₃ := by
                  have := sheight_lt_of_getD heq
                  omega
                exact ihc.2 k₂ hk₂ f₂ f₃ hb2 hb3
              · have hne : calculate_slot hashN (hashK k) depth ≠
                    calculate_slot hashN (hashK k₂) depth :=
                  fun hc => hss hc.symm
                simp only [searchT, getD_set_ne hne]
                split
                · rfl
                · rfl
                · next cc heq2 =>
                  have hb3 := sheight_lt_of_getD heq2
                  have hb2 : sheight cc < sheight (slots.set
                      (calculate_slot hashN (hashK k) depth)
                      (Handle.hnode c')) :=
                    sheight_lt_of_getD (by rw [getD_set_ne hne]; exact heq2)
                  exact searchT_fuel_irrel hashN f₂ f₃ (depth + 1) (hashK k₂)
                    k₂ cc (by omega) (by omega)

/-- Folding `HAMT::insert` over a list of key-value pairs, starting from a
given tree (used to express claims about sequences of inserts). -/
def insertAll [DecidableEq K] (hashK : K → Nat) (hashN : Nat → Nat)
    (fuel : Nat) : List (K × V) → List (Handle K V) →
      Option (List (Handle K V))
  | [], t => some t
  | (k, v) :: ps, t =>
    match insert hashK hashN fuel k v t with
    | none => none
    | some (t', _) => insertAll hashK hashN fuel ps t'

theorem insertAll_search [DecidableEq K] (hashK : K → Nat)
    (hashN : Nat → Nat) (fuel : Nat) :
    ∀ (ps : List (K × V)) (t t' : List (Handle K V)),
      insertAll hashK hashN fuel ps t = some t' →
      t.length = 16 → sWf t = true →
      List.Pairwise (fun a b => a.1 ≠ b.1) ps →
      ((t'.length = 16 ∧ sWf t' = true) ∧
       (∀ p ∈ ps, ∀ f₂, sheight t' < f₂ →
          searchT hashN f₂ 0 (hashK p.1) p.1 t' = some (some p.2)) ∧
       (∀ k₂ : K, (∀ p ∈ ps, p.1 ≠ k₂) →
          ∀ f₂ f₃, sheight t' < f₂ → sheight t < f₃ →
          searchT hashN f₂ 0 (hashK k₂) k₂ t' =
            searchT hashN f₃ 0 (hashK k₂) k₂ t)) := by
  intro ps
  induction ps with
  | nil =>
    intro t t' hins hlen hwf hpair
    cases hins
    refine ⟨⟨hlen, hwf⟩, ?_, ?_⟩
    · intro p hp; cases hp
    · intro k₂ _ f₂ f₃ h₂ h₃
      exact searchT_fuel_irrel hashN f₂ f₃ 0 (hashK k₂) k₂ t h₂ h₃
  | cons p ps ih =>
    obtain ⟨k, v⟩ := p
    intro t t' hins hlen hwf hpair
    simp only [insertAll] at hins
    split at hins
    · cases hins
    · next t₁ r₁ heqi =>
      have heqi' : sub_insert hashK hashN fuel 0 (hashK k) k v t =
          some (t₁, r₁) := heqi
      have hpc := List.pairwise_cons.mp hpair
      have wf1 := sub_insert_wf hashK hashN fuel 0 (hashK k) k v t t₁ r₁
        heqi' hlen hwf
      have main := sub_insert_search hashK hashN fuel 0 k v t t₁ r₁
        heqi' hlen hwf
      have ihr := ih t₁ t' hins wf1.1 wf1.2 hpc.2
      refine ⟨ihr.1, ?_, ?_⟩
      · intro q hq f₂ hf₂
        rcases List.mem_cons.mp hq with h | h
        · subst h
          have hk2 : ∀ q' ∈ ps, q'.1 ≠ k := fun q' hq' hc =>
            hpc.1 q' hq' hc.symm
          rw [ihr.2.2 k hk2 f₂ (sheight t₁ + 1) hf₂ (Nat.lt_succ_self _)]
          exact main.1 (sheight t₁ + 1) (Nat.lt_succ_self _)
        · exact ihr.2.1 q h f₂ hf₂
      · intro k₂ hk₂ f₂ f₃ hf₂ hf₃
        have hk2r : ∀ q ∈ ps, q.1 ≠ k₂ := fun q hq => hk₂ q (List.mem_cons_of_mem _ hq)
        have hkk₂ : k₂ ≠ k := fun hc =>
          hk₂ (k, v) (List.mem_cons_self _ _) hc.symm
        rw [ihr.2.2 k₂ hk2r f₂ (sheight t₁ + 1) hf₂ (Nat.lt_succ_self _)]
        exact main.2 k₂ hkk₂ (sheight t₁ + 1) f₃ (Nat.lt_succ_self _) hf₃

/-- C1: For every sequence of inserts with pairwise distinct keys starting
from the empty HAMT, every inserted pair `(k, v)` satisfies
`get(&k) = Some(v)` on the final tree (fuel above the final tree height is
always sufficient for the lookup). -/
theorem C1_insert_then_get [DecidableEq K] (hashK : K → Nat)
    (hashN : Nat → Nat) (fuel : Nat) (ps : List (K × V))
    (t' : List (Handle K V))
    (hdis : List.Pairwise (fun a b => a.1 ≠ b.1) ps)
    (hins : insertAll hashK hashN fuel ps empty16 = some t') :
    ∀ p ∈ ps, ∀ f₂, sheight t' < f₂ →
      get hashK hashN f₂ p.1 t' = some (some p.2) :=
  (insertAll_search hashK hashN fuel ps empty16 t' hins
    empty16_length rfl hdis).2.1

theorem sub_insert_expelled [DecidableEq K] (hashK : K → Nat)
    (hashN : Nat → Nat) :
    ∀ (fuel depth h : Nat) (k : K) (v : V)
      (slots slots' : List (Handle K V)) (v₀ : V),
      sub_insert hashK hashN fuel depth h k v slots = some (slots', some v₀) →
      k ∈ slotsKeys slots := by
  intro fuel
  induction fuel with
  | zero => intro depth h k v slots slots' v₀ hins; cases hins
  | succ fuel ih =>
    intro depth h k v slots slots' v₀ hins
    simp only [sub_insert] at hins
    split at hins
    · obtain ⟨h1, h2⟩ := some_pair_eq hins
      cases h2
    · next k' v' heq =>
      split at hins
      · next heqk =>
        apply keys_getD_subset slots (calculate_slot hashN h depth)
        rw [heq, heqk]
        exact List.mem_singleton_self k
      · split at hins
        · cases hins
        · next n1 r1 heq1 =>
          split at hins
          · cases hins
          · next n2 r2 heq2 =>
            obtain ⟨h1, h2⟩ := some_pair_eq hins
            cases h2
    · next c heq =>
      split at hins
      · cases hins
      · next c' r' heqr =>
        obtain ⟨h1, h2⟩ := some_pair_eq hins
        subst h2
        have hk := ih (depth + 1) h k v c c' v₀ heqr
        exact keys_getD_subset slots _ k (by rw [heq]; exact hk)

theorem sub_insert_found [DecidableEq K] (hashK : K → Nat)
    (hashN : Nat → Nat) :
    ∀ (fuel f₂ depth h : Nat) (k : K) (v v₁ : V)
      (slots slots' : List (Handle K V)) (r : Option V),
      sub_insert hashK hashN fuel depth h k v slots = some (slots', r) →
      searchT hashN f₂ depth h k slots = some (some v₁) →
      r = some v₁ := by
  intro fuel
  induction fuel with
  | zero => intro f₂ depth h k v v₁ slots slots' r hins; cases hins
  | succ fuel ih =>
    intro f₂ depth h k v v₁ slots slots' r hins hsearch
    cases f₂ with
    | zero => cases hsearch
    | succ f₂ =>
      simp only [sub_insert] at hins
      split at hins
      · next heq =>
        simp only [searchT, heq] at hsearch
        cases hsearch
      · next k' v' heq =>
        simp only [searchT, heq] at hsearch
        split at hins
        · next heqk =>
          rw [if_pos heqk] at hsearch
          obtain ⟨h1, h2⟩ := some_pair_eq hins
          injection hsearch with h3
          injection h3 with h4
          rw [h2, h4]
        · next heqk =>
          rw [if_neg heqk] at hsearch
          injection hsearch with h3
          cases h3
      · next c heq =>
        simp only [searchT, heq] at hsearch
        split at hins
        · cases hins
        · next c' r' heqr =>
          obtain ⟨h1, h2⟩ := some_pair_eq hins
          subst h2
          exact ih f₂ (depth + 1) h k v v₁ c c' r heqr hsearch

/-- C5: inserting `(k, v1)` into a tree not containing `k` expels nothing
(`Ok(None)`); a second `insert(k, v2)` expels `Some(v1)`; and a subsequent
`get(&k)` yields `Some(v2)`. -/
theorem C5_last_write_wins [DecidableEq K] (hashK : K → Nat)
    (hashN : Nat → Nat) (fuel1 fuel2 : Nat) (k : K) (v1 v2 : V)
    (t t1 t2 : List (Handle K V)) (r1 r2 : Option V)
    (hlen : t.length = 16) (hwf : sWf t = true) (habs : k ∉ slotsKeys t)
    (h1 : insert hashK hashN fuel1 k v1 t = some (t1, r1))
    (h2 : insert hashK hashN fuel2 k v2 t1 = some (t2, r2)) :
    r1 = none ∧ r2 = some v1 ∧
      ∀ f, sheight t2 < f → get hashK hashN f k t2 = some (some v2) := by
  have h1' : sub_insert hashK hashN fuel1 0 (hashK k) k v1 t =
      some (t1, r1) := h1
  have h2' : sub_insert hashK hashN fuel2 0 (hashK k) k v2 t1 =
      some (t2, r2) := h2
  have wf1 := sub_insert_wf hashK hashN fuel1 0 (hashK k) k v1 t t1 r1
    h1' hlen hwf
  have main1 := sub_insert_search hashK hashN fuel1 0 k v1 t t1 r1
    h1' hlen hwf
  have main2 := sub_insert_search hashK hashN fuel2 0 k v2 t1 t2 r2
    h2' wf1.1 wf1.2
  refine ⟨?_, ?_, fun f hf => main2.1 f hf⟩
  · cases r1 with
    | none => rfl
    | some v₀ =>
      exact absurd
        (sub_insert_expelled hashK hashN fuel1 0 (hashK k) k v1 t t1 v₀ h1')
        habs
  · exact sub_insert_found hashK hashN fuel2 (sheight t1 + 1) 0 (hashK k)
      k v2 v1 t1 t2 r2 h2' (main1.1 (sheight t1 + 1) (Nat.lt_succ_self _))

/-- Witness for C1: insert (1, 10) then (2, 20) into the empty tree and
read both back. -/
theorem C1_witness :
    List.Pairwise (fun a b => a.1 ≠ b.1) [((1 : Nat), (10 : Nat)), (2, 20)] ∧
    insertAll (fun n => n) (fun n => n) 2 [((1 : Nat), (10 : Nat)), (2, 20)]
      empty16 = some ((empty16.set 1 (.hleaf 1 10)).set 2 (.hleaf 2 20)) ∧
    sheight ((empty16.set 1 (Handle.hleaf 1 10)).set 2
      (Handle.hleaf (2 : Nat) (20 : Nat))) < 1 ∧
    get (fun n => n) (fun n => n) 1 1
      ((empty16.set 1 (.hleaf 1 10)).set 2 (.hleaf 2 20)) = some (some 10) ∧
    get (fun n => n) (fun n => n) 1 2
      ((empty16.set 1 (.hleaf 1 10)).set 2 (.hleaf 2 20)) = some (some 20) :=
  ⟨by decide, rfl, by decide,
   C1_insert_then_get (fun n => n) (fun n => n) 2 [(1, 10), (2, 20)]
     ((empty16.set 1 (.hleaf 1 10)).set 2 (.hleaf 2 20)) (by decide) rfl
     (1, 10) (by decide) 1 (by decide),
   C1_insert_then_get (fun n => n) (fun n => n) 2 [(1, 10), (2, 20)]
     ((empty16.set 1 (.hleaf 1 10)).set 2 (.hleaf 2 20)) (by decide) rfl
     (2, 20) (by decide) 1 (by decide)⟩

/-- Witness for C5: overwrite key 3 in a singleton tree. -/
theorem C5_witness :
    (3 : Nat) ∉ slotsKeys (empty16 (K := Nat) (V := Nat)) ∧
    insert (fun n => n) (fun n => n) 1 3 7 empty16 =
      some (empty16.set 3 (.hleaf 3 7), none) ∧
    insert (fun n => n) (fun n => n) 1 3 9 (empty16.set 3 (.hleaf 3 7)) =
      some (empty16.set 3 (.hleaf 3 9), some 7) ∧
    get (fun n => n) (fun n => n) 1 3 (empty16.set 3 (.hleaf 3 9)) =
      some (some 9) :=
  ⟨by decide, rfl, rfl,
   (C5_last_write_wins (fun n => n) (fun n => n) 1 1 3 7 9 empty16
     (empty16.set 3 (.hleaf 3 7)) (empty16.set 3 (.hleaf 3 9)) none (some 7)
     rfl rfl (by decide) rfl rfl).2.2 1 (by decide)⟩

/-- Witness for C10 at a concrete hash, depth and slot array. -/
theorem C10_witness :
    calculate_slot (fun x => x) 5 3 < nBuckets ∧
    (empty16 (K := Nat) (V := Nat)).length = nBuckets ∧
    calculate_slot (fun x => x) 5 3 < (empty16 (K := Nat) (V := Nat)).length :=
  ⟨(C10_calculate_slot_in_bounds (K := Nat) (V := Nat) (fun x => x) 5 3).1,
   rfl,
   (C10_calculate_slot_in_bounds (K := Nat) (V := Nat) (fun x => x) 5 3).2
     empty16 rfl⟩

/-- Witness for C4 at a concrete state satisfying the invariant. -/
theorem C4_witness :
    sNoSingle (empty16 (K := Nat) (V := Nat)) = true ∧
    remove (fun n => n) (fun n => n) 3 7 (empty16 (K := Nat) (V := Nat)) ≠
      some none :=
  ⟨rfl,
   (C4_root_never_collapses (fun n => n) (fun n => n) 3 7 empty16 rfl).2⟩

/-- Witness for C9: removing from the empty tree returns `Ok(None)`. -/
theorem C9_witness :
    (7 : Nat) ∉ slotsKeys (empty16 (K := Nat) (V := Nat)) ∧
    sheight (empty16 (K := Nat) (V := Nat)) < 1 ∧
    remove (fun n => n) (fun n => n) 1 7 (empty16 (K := Nat) (V := Nat)) =
      some (some (empty16, none)) :=
  ⟨by decide, by decide,
   C9_remove_absent (fun n => n) (fun n => n) 1 7 empty16 (by decide) (by decide)⟩

/-- Witness for C2: with a (synthetic) totally colliding key hash, the
first insert succeeds and the second runs out of any amount of fuel. -/
theorem C2_witness :
    insert (K := Nat) (V := Nat) (fun _ => 0) (fun x => x) 1 0 0 empty16 =
      some (empty16.set 0 (.hleaf 0 0), none) ∧
    insert (K := Nat) (V := Nat) (fun _ => 0) (fun x => x) 9 1 1
      (empty16.set 0 (.hleaf 0 0)) = none :=
  ⟨rfl,
   C2_collision_insert_diverges (fun _ => 0) (fun x => x) 0 1 0 1
     (by decide) rfl 1 (empty16.set 0 (.hleaf 0 0)) none rfl 9⟩

end Kelvin

namespace Kelvin

variable {K V : Type}

theorem removeSingleton_spec [DecidableEq K] {slots slots'' : List (Handle K V)}
    {ik : K} {iv : V}
    (h : removeSingleton slots = some ((ik, iv), slots'')) :
    ∃ idx, slots.getD idx .hnone = .hleaf ik iv ∧
      slots'' = slots.set idx .hnone := by
  simp only [removeSingleton] at h
  split at h
  · next i hscan =>
    split at h
    · next k v heq =>
      obtain ⟨h1, h2⟩ := some_pair_eq h
      injection h1 with hk hv
      subst hk
      subst hv
      exact ⟨i, heq, h2⟩
    · cases h
  · cases h

theorem afterRemove_shape [DecidableEq K] (depth : Nat) (rk : K) (rv : V)
    (slots : List (Handle K V)) :
    (afterRemove depth rk rv slots).2 = .rleaf rk rv ∨
      ∃ ik iv, (afterRemove depth rk rv slots).2 = .rcollapse rk rv ik iv := by
  simp only [afterRemove]
  split
  · split
    · next ik iv s'' heq =>
      right; exact ⟨ik, iv, rfl⟩
    · left; rfl
  · left; rfl

theorem subRemove_wf [DecidableEq K] (hashN : Nat → Nat) :
    ∀ (fuel depth h : Nat) (k : K) (slots slots' : List (Handle K V))
      (r : Removed K V),
      subRemove hashN fuel depth h k slots = some (slots', r) →
      slots.length = 16 → sWf slots = true →
      slots'.length = 16 ∧ sWf slots' = true := by
  have haft : ∀ (depth : Nat) (rk : K) (rv : V)
      (s₁ s₂ : List (Handle K V)) (r : Removed K V),
      afterRemove depth rk rv s₁ = (s₂, r) →
      s₁.length = 16 → sWf s₁ = true →
      s₂.length = 16 ∧ sWf s₂ = true := by
    intro depth rk rv s₁ s₂ r h hlen hwf
    simp only [afterRemove] at h
    split at h
    · split at h
      · next ik iv s'' heq =>
        obtain ⟨idx, hidx, hset⟩ := removeSingleton_spec heq
        injection h with h1 h2
        subst hset
        rw [← h1]
        exact ⟨by rw [length_set, hlen],
          sWf_set hwf (show hWf (Handle.hnone (K := K) (V := V)) = true
            from rfl) _⟩
      · injection h with h1 h2
        rw [← h1]
        exact ⟨hlen, hwf⟩
    · injection h with h1 h2
      rw [← h1]
      exact ⟨hlen, hwf⟩
  intro fuel
  induction fuel with
  | zero => intro depth h k slots slots' r hrem; cases hrem
  | succ fuel ih =>
    intro depth h k slots slots' r hrem hlen hwf
    simp only [subRemove] at hrem
    split at hrem
    · obtain ⟨h1, h2⟩ := some_pair_eq hrem
      subst h1
      exact ⟨hlen, hwf⟩
    · next k' v' heq =>
      split at hrem
      · injection hrem with h1
        exact haft depth k' v' _ slots' r h1
          (by rw [length_set, hlen])
          (sWf_set hwf (show hWf (Handle.hnone (K := K) (V := V)) = true
            from rfl) _)
      · obtain ⟨h1, h2⟩ := some_pair_eq hrem
        subst h1
        exact ⟨hlen, hwf⟩
    · next c heq =>
      have hcwf : hWf (Handle.hnode c) = true := by
        rw [← heq]; exact sWf_getD hwf _
      simp only [hWf, Bool.and_eq_true, beq_iff_eq] at hcwf
      split at hrem
      · cases hrem
      · next c₁ rk rv ik iv heqr =>
        injection hrem with h1
        exact haft depth rk rv _ slots' r h1
          (by rw [length_set, hlen])
          (sWf_set hwf (show hWf (Handle.hleaf ik iv) = true from rfl) _)
      · next c' a hnc heqr =>
        obtain ⟨h1, h2⟩ := some_pair_eq hrem
        subst h1
        have wc := ih (depth + 1) h k c c' a heqr hcwf.1 hcwf.2
        refine ⟨by rw [length_set, hlen], ?_⟩
        refine sWf_set hwf ?_ _
        simp only [hWf, Bool.and_eq_true, beq_iff_eq]
        exact ⟨wc.1, wc.2⟩

theorem nodup_handleKeys_of_mem [DecidableEq K] {x : Handle K V}
    {l : List (Handle K V)} (hm : x ∈ l)
    (hnd : (slotsKeys l).Nodup) : (handleKeys x).Nodup := by
  induction l with
  | nil => cases hm
  | cons a t ih =>
    simp only [slotsKeys] at hnd
    rcases List.mem_cons.mp hm with h | h
    · subst h; exact hnd.of_append_left
    · exact ih h hnd.of_append_right

theorem nodup_getD [DecidableEq K] {l : List (Handle K V)} (j : Nat)
    (hnd : (slotsKeys l).Nodup) : (handleKeys (l.getD j .hnone)).Nodup := by
  rcases getD_eq_default_or_mem l j .hnone with h | h
  · rw [h]; exact List.nodup_nil
  · exact nodup_handleKeys_of_mem h hnd

/-- In a tree with globally distinct leaf keys, a key that lives in the
component at slot `s` can, after replacing that component, only be found
in the replacement. -/
theorem keys_set_of_nodup [DecidableEq K] :
    ∀ (l : List (Handle K V)) (s : Nat) (Y : Handle K V) (k : K),
      (slotsKeys l).Nodup → k ∈ handleKeys (l.getD s .hnone) →
      k ∈ slotsKeys (l.set s Y) → k ∈ handleKeys Y := by
  intro l
  induction l with
  | nil => intro s Y k _ hX; cases hX
  | cons a t ih =>
    intro s Y k hnd hX hmem
    simp only [slotsKeys] at hnd
    cases s with
    | zero =>
      simp only [List.getD] at hX
      simp only [List.set, slotsKeys] at hmem
      rcases List.mem_append.mp hmem with h | h
      · exact h
      · exact absurd h (List.disjoint_of_nodup_append hnd hX)
    | succ m =>
      simp only [List.getD] at hX
      have hkt : k ∈ slotsKeys t := keys_getD_subset t m k hX
      simp only [List.set, slotsKeys] at hmem
      rcases List.mem_append.mp hmem with h | h
      · exact absurd hkt
          (List.disjoint_of_nodup_append hnd h)
      · exact ih m Y k hnd.of_append_right hX h

theorem getD_cons_zero (a : Handle K V) (t : List (Handle K V))
    (d : Handle K V) : (a :: t).getD 0 d = a := rfl

theorem getD_cons_succ (a : Handle K V) (t : List (Handle K V)) (m : Nat)
    (d : Handle K V) : (a :: t).getD (m + 1) d = t.getD m d := rfl

theorem count_keys_set [DecidableEq K] :
    ∀ (l : List (Handle K V)) (s : Nat) (X : Handle K V) (k : K),
      s < l.length →
      (slotsKeys (l.set s X)).count k + (handleKeys (l.getD s .hnone)).count k =
        (slotsKeys l).count k + (handleKeys X).count k := by
  intro l
  induction l with
  | nil => intro s X k hs; simp at hs
  | cons a t ih =>
    intro s X k hs
    cases s with
    | zero =>
      simp only [List.set, getD_cons_zero, slotsKeys, List.count_append]
      omega
    | succ m =>
      simp only [List.set, getD_cons_succ, slotsKeys, List.count_append]
      have := ih m X k (Nat.lt_of_succ_lt_succ hs)
      omega

end Kelvin

namespace Kelvin

variable {K V : Type}

theorem slotsKeys_empty16 : slotsKeys (empty16 (K := K) (V := V)) = [] := rfl

theorem count_leaf [DecidableEq K] (a : K) (b : V) (k₀ : K) :
    (handleKeys (Handle.hleaf a b)).count k₀ = if k₀ = a then 1 else 0 := by
  by_cases h : k₀ = a
  · subst h
    simp [handleKeys]
  · rw [if_neg h]
    simp [handleKeys, List.count_cons,
      show ¬ a = k₀ from fun hc => h hc.symm]

theorem count_none [DecidableEq K] (k₀ : K) :
    (handleKeys (Handle.hnone (K := K) (V := V))).count k₀ = 0 := rfl

theorem count_node [DecidableEq K] (c : List (Handle K V)) (k₀ : K) :
    (handleKeys (Handle.hnode c)).count k₀ = (slotsKeys c).count k₀ := rfl

/-- Contribution of a completed insert to the count of the inserted key:
one new occurrence if nothing was expelled, none otherwise. -/
def expelledBump : Option V → Nat
  | none => 1
  | some _ => 0

/-- Key-count bookkeeping for insertion: a successful insert adds exactly
one occurrence of the inserted key when nothing is expelled, and leaves
every key count unchanged when a value is expelled. -/
theorem sub_insert_count [DecidableEq K] (hashK : K → Nat)
    (hashN : Nat → Nat) :
    ∀ (fuel depth h : Nat) (k : K) (v : V)
      (slots slots' : List (Handle K V)) (r : Option V),
      sub_insert hashK hashN fuel depth h k v slots = some (slots', r) →
      slots.length = 16 → sWf slots = true →
      ∀ k₀ : K, (slotsKeys slots').count k₀ =
        (slotsKeys slots).count k₀ +
          (if k₀ = k then expelledBump r else 0) := by
  intro fuel
  induction fuel with
  | zero => intro depth h k v slots slots' r hins; cases hins
  | succ fuel ih =>
    intro depth h k v slots slots' r hins hlen hwf k₀
    have hs : calculate_slot hashN h depth < slots.length := by
      rw [hlen]; exact calculate_slot_lt hashN h depth
    simp only [sub_insert] at hins
    split at hins
    · next heq =>
      obtain ⟨h1, h2⟩ := some_pair_eq hins
      subst h1; subst h2
      have hcnt := count_keys_set slots (calculate_slot hashN h depth)
        (.hleaf k v) k₀ hs
      rw [heq, count_none, count_leaf] at hcnt
      simp only [expelledBump]
      by_cases hk : k₀ = k
      · rw [if_pos hk] at hcnt ⊢; omega
      · rw [if_neg hk] at hcnt ⊢; omega
    · next k' v' heq =>
      split at hins
      · next heqk =>
        obtain ⟨h1, h2⟩ := some_pair_eq hins
        subst h1; subst h2
        have hcnt := count_keys_set slots (calculate_slot hashN h depth)
          (.hleaf k v) k₀ hs
        rw [heq, count_leaf, count_leaf, heqk] at hcnt
        simp only [expelledBump]
        by_cases hk : k₀ = k
        · rw [if_pos hk] at hcnt ⊢; omega
        · rw [if_neg hk] at hcnt ⊢; omega
      · next heqk =>
        split at hins
        · cases hins
        · next n1 r1 heq1 =>
          split at hins
          · cases hins
          · next n2 r2 heq2 =>
            obtain ⟨h1, h2⟩ := some_pair_eq hins
            subst h1; subst h2
            cases fuel with
            | zero => cases heq1
            | succ fuel' =>
              have heq1' := heq1
              rw [sub_insert_empty hashK hashN fuel' (depth + 1) h k v]
                at heq1'
              obtain ⟨hn1, hr1⟩ := some_pair_eq heq1'
              have w1 := sub_insert_wf hashK hashN (fuel' + 1) (depth + 1) h
                k v empty16 n1 r1 heq1 empty16_length rfl
              have hcn1 : ∀ k₁ : K, (slotsKeys n1).count k₁ =
                  if k₁ = k then 1 else 0 := by
                intro k₁
                subst hn1
                have hc := count_keys_set empty16
                  (calculate_slot hashN h (depth + 1)) (.hleaf k v) k₁
                  (by rw [empty16_length]
                      exact calculate_slot_lt hashN h (depth + 1))
                rw [getD_replicate, count_none, count_leaf,
                  slotsKeys_empty16] at hc
                simp only [List.count_nil] at hc
                omega
              have hr2 : r2 = none := by
                cases r2 with
                | none => rfl
                | some v₀ =>
                  have hmem := sub_insert_expelled hashK hashN (fuel' + 1)
                    (depth + 1) (hashK k') k' v' n1 n2 v₀ heq2
                  have hck := hcn1 k'
                  rw [if_neg heqk] at hck
                  exact absurd hmem (List.count_eq_zero.mp hck)
              subst hr2
              have hcn2 := ih (depth + 1) (hashK k') k' v' n1 n2 none heq2
                w1.1 w1.2 k₀
              simp only [expelledBump] at hcn2
              have hcnt1 := count_keys_set slots
                (calculate_slot hashN h depth) Handle.hnone k₀ hs
              rw [heq, count_none, count_leaf] at hcnt1
              have hcnt2 := count_keys_set
                (slots.set (calculate_slot hashN h depth) Handle.hnone)
                (calculate_slot hashN h depth) (.hnode n2) k₀
                (by rw [length_set, hlen]
                    exact calculate_slot_lt hashN h depth)
              rw [getD_set_self hs, count_none, count_node] at hcnt2
              rw [hcn1 k₀] at hcn2
              simp only [expelledBump]
              by_cases hk : k₀ = k
              · rw [if_pos hk] at hcn2 ⊢
                rw [if_neg (fun hc : k₀ = k' =>
                  heqk ((hk.symm.trans hc).symm))] at hcn2 hcnt1
                omega
              · rw [if_neg hk] at hcn2 ⊢
                by_cases hkp : k₀ = k'
                · rw [if_pos hkp] at hcn2 hcnt1
                  omega
                · rw [if_neg hkp] at hcn2 hcnt1
                  omega
    · next c heq =>
      split at hins
      · cases hins
      · next cp rp heqr =>
        obtain ⟨h1, h2⟩ := some_pair_eq hins
        subst h1; subst h2
        have hcwf : hWf (Handle.hnode c) = true := by
          rw [← heq]; exact sWf_getD hwf _
        simp only [hWf, Bool.and_eq_true, beq_iff_eq] at hcwf
        have hcc := ih (depth + 1) h k v c cp r heqr hcwf.1 hcwf.2 k₀
        have hcnt := count_keys_set slots (calculate_slot hashN h depth)
          (.hnode cp) k₀ hs
        rw [heq, count_node, count_node] at hcnt
        omega

/-- Inserting a key absent from a duplicate-free tree keeps the leaf keys
duplicate-free. -/
theorem insert_nodup_absent [DecidableEq K] (hashK : K → Nat)
    (hashN : Nat → Nat) (fuel : Nat) (k : K) (v : V)
    (t t1 : List (Handle K V)) (r1 : Option V)
    (hins : sub_insert hashK hashN fuel 0 (hashK k) k v t = some (t1, r1))
    (hlen : t.length = 16) (hwf : sWf t = true)
    (hnd : (slotsKeys t).Nodup) (habs : k ∉ slotsKeys t) :
    (slotsKeys t1).Nodup := by
  rw [List.nodup_iff_count_le_one] at hnd ⊢
  intro k₀
  have hc := sub_insert_count hashK hashN fuel 0 (hashK k) k v t t1 r1
    hins hlen hwf k₀
  by_cases hk : k₀ = k
  · subst hk
    have h0 : (slotsKeys t).count k₀ = 0 := List.count_eq_zero.mpr habs
    rw [hc, h0, if_pos rfl]
    cases r1 <;> simp [expelledBump]
  · rw [hc, if_neg hk]
    have := hnd k₀
    omega

end Kelvin

namespace Kelvin

variable {K V : Type}

/-- Removal of a key that the search finds: the removed leaf carries
exactly the key searched for and its stored value. -/
theorem subRemove_found [DecidableEq K] (hashN : Nat → Nat) :
    ∀ (fuel f₂ depth h : Nat) (k : K) (v : V)
      (slots slots' : List (Handle K V)) (r : Removed K V),
      subRemove hashN fuel depth h k slots = some (slots', r) →
      searchT hashN f₂ depth h k slots = some (some v) →
      (r = .rleaf k v ∨ ∃ ik iv, r = .rcollapse k v ik iv) := by
  intro fuel
  induction fuel with
  | zero => intro f₂ depth h k v slots slots' r hrem; cases hrem
  | succ fuel ih =>
    intro f₂ depth h k v slots slots' r hrem hsearch
    cases f₂ with
    | zero => cases hsearch
    | succ f₂ =>
      simp only [subRemove] at hrem
      split at hrem
      · next heq =>
        simp only [searchT, heq] at hsearch
        cases hsearch
      · next k' v' heq =>
        simp only [searchT, heq] at hsearch
        split at hrem
        · next heqk =>
          rw [if_pos heqk] at hsearch
          injection hsearch with h3
          injection h3 with h4
          injection hrem with h5
          have hshape := afterRemove_shape depth k' v'
            (slots.set (calculate_slot hashN h depth) .hnone)
          rw [h5] at hshape
          simp only at hshape
          rw [heqk, h4] at hshape
          exact hshape
        · next heqk =>
          rw [if_neg heqk] at hsearch
          injection hsearch with h3
          cases h3
      · next c heq =>
        simp only [searchT, heq] at hsearch
        split at hrem
        · cases hrem
        · next c₁ rk rv ik iv heqr =>
          have hinner := ih f₂ (depth + 1) h k v c c₁
            (.rcollapse rk rv ik iv) heqr hsearch
          rcases hinner with h3 | ⟨ik', iv', h3⟩
          · cases h3
          · injection h3 with e1 e2 e3 e4
            injection hrem with h5
            have hshape := afterRemove_shape depth rk rv
              (slots.set (calculate_slot hashN h depth) (.hleaf ik iv))
            rw [h5] at hshape
            simp only at hshape
            rw [e1, e2] at hshape
            exact hshape
        · next c' a hnc heqr =>
          obtain ⟨h1, h2⟩ := some_pair_eq hrem
          subst h2
          have hinner := ih f₂ (depth + 1) h k v c c' r heqr hsearch
          rcases hinner with h3 | ⟨ik', iv', h3⟩
          · left; exact h3
          · exact absurd h3 (fun hc => hnc k v ik' iv' hc)

/-- Removal of a present key under globally distinct leaf keys: the tree
shrinks, the key is no longer found, and a collapse never reinserts a leaf
with the removed key. -/
theorem subRemove_gone [DecidableEq K] (hashN : Nat → Nat) :
    ∀ (fuel depth h : Nat) (k : K) (slots slots' : List (Handle K V))
      (r : Removed K V),
      subRemove hashN fuel depth h k slots = some (slots', r) →
      slots.length = 16 → sWf slots = true → (slotsKeys slots).Nodup →
      ((r = .rnone → slots' = slots) ∧
       (r ≠ .rnone →
          k ∈ slotsKeys slots ∧
          (∀ f₂, sheight slots' < f₂ →
            searchT hashN f₂ depth h k slots' = some none) ∧
          (∀ rk rv ik iv, r = .rcollapse rk rv ik iv → ik ≠ k))) := by
  intro fuel
  induction fuel with
  | zero => intro depth h k slots slots' r hrem; cases hrem
  | succ fuel ih =>
    intro depth h k slots slots' r hrem hlen hwf hnd
    have hs : calculate_slot hashN h depth < slots.length := by
      rw [hlen]; exact calculate_slot_lt hashN h depth
    simp only [subRemove] at hrem
    split at hrem
    · next heq =>
      obtain ⟨h1, h2⟩ := some_pair_eq hrem
      subst h1; subst h2
      exact ⟨fun _ => rfl, fun hr => absurd rfl hr⟩
    · next k' v' heq =>
      split at hrem
      · next heqk =>
        injection hrem with h5
        subst heqk
        have hmem : k' ∈ slotsKeys slots :=
          keys_getD_subset slots _ k' (by rw [heq]; exact List.mem_singleton_self k')
        have hknot1 : k' ∉ slotsKeys
            (slots.set (calculate_slot hashN h depth) .hnone) := by
          intro hcon
          have := keys_set_of_nodup slots (calculate_slot hashN h depth)
            .hnone k' hnd (by rw [heq]; exact List.mem_singleton_self k') hcon
          cases this
        constructor
        · intro hr
          exfalso
          rcases afterRemove_shape depth k' v'
            (slots.set (calculate_slot hashN h depth) .hnone) with hsh | ⟨ik, iv, hsh⟩
          · rw [h5] at hsh; simp only at hsh; rw [hr] at hsh; cases hsh
          · rw [h5] at hsh; simp only at hsh; rw [hr] at hsh; cases hsh
        · intro _
          refine ⟨hmem, ?_, ?_⟩
          · intro f₂ hf₂
            cases f₂ with
            | zero => omega
            | succ f₂ =>
              simp only [afterRemove] at h5
              split at h5
              · split at h5
                · next ik iv s'' heq2 =>
                  obtain ⟨idx, hidx, hset⟩ := removeSingleton_spec heq2
                  injection h5 with e1 e2
                  subst hset
                  rw [← e1]
                  simp only [searchT]
                  by_cases hidx2 : idx = calculate_slot hashN h depth
                  · subst hidx2
                    rw [getD_set_self (by
                      rw [length_set, hlen]
                      exact calculate_slot_lt hashN h depth)]
                  · simp only [getD_set_ne hidx2, getD_set_self hs]
                · next heq2 =>
                  injection h5 with e1 e2
                  rw [← e1]
                  simp only [searchT, getD_set_self hs]
              · injection h5 with e1 e2
                rw [← e1]
                simp only [searchT, getD_set_self hs]
          · intro rk rv ik iv hr
            simp only [afterRemove] at h5
            split at h5
            · split at h5
              · next ik2 iv2 s'' heq2 =>
                obtain ⟨idx, hidx, hset⟩ := removeSingleton_spec heq2
                injection h5 with e1 e2
                rw [← e2] at hr
                injection hr with f1 f2 f3 f4
                intro hc
                apply hknot1
                have hmem2 : ik2 ∈ slotsKeys
                    (slots.set (calculate_slot hashN h depth) Handle.hnone) :=
                  keys_getD_subset _ idx ik2
                    (by rw [hidx]; exact List.mem_singleton_self ik2)
                rw [f3, hc] at hmem2
                exact hmem2
              · injection h5 with e1 e2
                rw [← e2] at hr
                cases hr
            · injection h5 with e1 e2
              rw [← e2] at hr
              cases hr
      · next heqk =>
        obtain ⟨h1, h2⟩ := some_pair_eq hrem
        subst h1; subst h2
        exact ⟨fun _ => rfl, fun hr => absurd rfl hr⟩
    · next c heq =>
      have hcwf : hWf (Handle.hnode c) = true := by
        rw [← heq]; exact sWf_getD hwf _
      simp only [hWf, Bool.and_eq_true, beq_iff_eq] at hcwf
      have hcnd : (slotsKeys c).Nodup := by
        have := nodup_getD (calculate_slot hashN h depth) hnd (l := slots)
        rw [heq] at this
        exact this
      split at hrem
      · cases hrem
      · next c₁ rk rv ik iv heqr =>
        have hchild := ih (depth + 1) h k c c₁ (.rcollapse rk rv ik iv)
          heqr hcwf.1 hcwf.2 hcnd
        have hchildr := hchild.2 (fun hc => by cases hc)
        have hik : ik ≠ k := hchildr.2.2 rk rv ik iv rfl
        have hkc : k ∈ slotsKeys c := hchildr.1
        have hkmem : k ∈ slotsKeys slots :=
          keys_getD_subset slots _ k (by rw [heq]; exact hkc)
        have hknot1 : k ∉ slotsKeys
            (slots.set (calculate_slot hashN h depth) (.hleaf ik iv)) := by
          intro hcon
          have := keys_set_of_nodup slots (calculate_slot hashN h depth)
            (.hleaf ik iv) k hnd (by rw [heq]; exact hkc) hcon
          simp only [handleKeys, List.mem_singleton] at this
          exact hik this.symm
        injection hrem with h5
        constructor
        · intro hr
          exfalso
          rcases afterRemove_shape depth rk rv
            (slots.set (calculate_slot hashN h depth) (.hleaf ik iv)) with
            hsh | ⟨ik2, iv2, hsh⟩
          · rw [h5] at hsh; simp only at hsh; rw [hr] at hsh; cases hsh
          · rw [h5] at hsh; simp only at hsh; rw [hr] at hsh; cases hsh
        · intro _
          refine ⟨hkmem, ?_, ?_⟩
          · intro f₂ hf₂
            cases f₂ with
            | zero => omega
            | succ f₂ =>
              simp only [afterRemove] at h5
              split at h5
              · split at h5
                · next ik2 iv2 s'' heq2 =>
                  obtain ⟨idx, hidx, hset⟩ := removeSingleton_spec heq2
                  injection h5 with e1 e2
                  subst hset
                  rw [← e1]
                  simp only [searchT]
                  by_cases hidx2 : idx = calculate_slot hashN h depth
                  · subst hidx2
                    rw [getD_set_self (by
                      rw [length_set, hlen]
                      exact calculate_slot_lt hashN h depth)]
                  · simp only [getD_set_ne hidx2, getD_set_self hs]
                    rw [if_neg hik]
                · next heq2 =>
                  injection h5 with e1 e2
                  rw [← e1]
                  simp only [searchT, getD_set_self hs]
                  rw [if_neg hik]
              · injection h5 with e1 e2
                rw [← e1]
                simp only [searchT, getD_set_self hs]
                rw [if_neg hik]
          · intro rk2 rv2 ik2 iv2 hr
            simp only [afterRemove] at h5
            split at h5
            · split at h5
              · next ik3 iv3 s'' heq2 =>
                obtain ⟨idx, hidx, hset⟩ := removeSingleton_spec heq2
                injection h5 with e1 e2
                rw [← e2] at hr
                injection hr with f1 f2 f3 f4
                intro hc
                apply hknot1
                have hmem2 : ik3 ∈ slotsKeys (slots.set
                    (calculate_slot hashN h depth) (.hleaf ik iv)) :=
                  keys_getD_subset _ idx ik3
                    (by rw [hidx]; exact List.mem_singleton_self ik3)
                rw [f3, hc] at hmem2
                exact hmem2
              · injection h5 with e1 e2
                rw [← e2] at hr
                cases hr
            · injection h5 with e1 e2
              rw [← e2] at hr
              cases hr
      · next c' a hnc heqr =>
        obtain ⟨h1, h2⟩ := some_pair_eq hrem
        subst h1; subst h2
        have hchild := ih (depth + 1) h k c c' r heqr hcwf.1 hcwf.2 hcnd
        constructor
        · intro hr
          have hcc := hchild.1 hr
          subst hcc
          have := set_getD_self slots (calculate_slot hashN h depth)
          rw [heq] at this
          exact this
        · intro hr
          have hchildr := hchild.2 hr
          refine ⟨keys_getD_subset slots _ k (by rw [heq]; exact hchildr.1),
            ?_, ?_⟩
          · intro f₂ hf₂
            cases f₂ with
            | zero => omega
            | succ f₂ =>
              have hgot : (slots.set (calculate_slot hashN h depth)
                  (Handle.hnode c')).getD (calculate_slot hashN h depth)
                  .hnone = Handle.hnode c' := getD_set_self hs _ _
              simp only [searchT, hgot]
              have hb := sheight_lt_of_getD hgot
              exact hchildr.2.1 f₂ (by omega)
          · intro rk rv ik iv hr2
            exact absurd hr2 (fun hc => hnc rk rv ik iv hc)

end Kelvin

namespace Kelvin

variable {K V : Type}

/-- C6: after inserting `(k, v)` into a well-formed, duplicate-free tree
that does not contain `k`, `remove(&k)` returns `Ok(Some(v))` and a
subsequent `get(&k)` returns `None`. -/
theorem C6_remove_then_get [DecidableEq K] (hashK : K → Nat)
    (hashN : Nat → Nat) (fuel1 : Nat) (k : K) (v : V)
    (t t1 : List (Handle K V)) (r1 : Option V)
    (hlen : t.length = 16) (hwf : sWf t = true)
    (hnd : (slotsKeys t).Nodup) (habs : k ∉ slotsKeys t)
    (h1 : insert hashK hashN fuel1 k v t = some (t1, r1)) :
    ∀ fr, sheight t1 < fr →
      ∃ t2, remove hashK hashN fr k t1 = some (some (t2, some v)) ∧
        ∀ f₂, sheight t2 < f₂ → get hashK hashN f₂ k t2 = some none := by
  intro fr hfr
  have h1' : sub_insert hashK hashN fuel1 0 (hashK k) k v t =
      some (t1, r1) := h1
  have wf1 := sub_insert_wf hashK hashN fuel1 0 (hashK k) k v t t1 r1
    h1' hlen hwf
  have hnd1 := insert_nodup_absent hashK hashN fuel1 k v t t1 r1 h1'
    hlen hwf hnd habs
  have hfind := (sub_insert_search hashK hashN fuel1 0 k v t t1 r1
    h1' hlen hwf).1
  have hadW := subRemove_adequate hashN fr 0 (hashK k) k t1 hfr
  cases hrem : subRemove hashN fr 0 (hashK k) k t1 with
  | none => rw [hrem] at hadW; cases hadW
  | some res =>
    obtain ⟨t2, rr⟩ := res
    have hfound := subRemove_found hashN fr (sheight t1 + 1) 0 (hashK k)
      k v t1 t2 rr hrem (hfind (sheight t1 + 1) (Nat.lt_succ_self _))
    have hshape := subRemove_root_shape hashN fr (hashK k) k t1 (t2, rr) hrem
    have hrr : rr = .rleaf k v := by
      rcases hfound with h | ⟨ik, iv, h⟩
      · exact h
      · rcases hshape with h2 | ⟨rk, rv, h2⟩ <;> simp [h] at h2
    subst hrr
    refine ⟨t2, ?_, ?_⟩
    · simp only [remove, hrem]
    · intro f₂ hf₂
      have hgone := (subRemove_gone hashN fr 0 (hashK k) k t1 t2
        (.rleaf k v) hrem wf1.1 wf1.2 hnd1).2 (by intro hc; cases hc)
      exact hgone.2.1 f₂ hf₂

/-- Witness for C6: insert (3, 7) into the empty tree, remove it, look it
up. -/
theorem C6_witness :
    ∃ t2, remove (fun n => n) (fun n => n) 1 3
        ((empty16 : List (Handle Nat Nat)).set 3 (.hleaf 3 7)) =
        some (some (t2, some 7)) ∧
      ∀ f₂, sheight t2 < f₂ →
        get (fun n => n) (fun n => n) f₂ 3 t2 = some none :=
  C6_remove_then_get (fun n => n) (fun n => n) 1 3 7 empty16
    (empty16.set 3 (.hleaf 3 7)) none rfl rfl (by decide) (by decide) rfl
    1 (by decide)

end Kelvin

namespace Kelvin

variable {K V : Type}

/-- Indicator of a `Leaf` handle. -/
def leafB : Handle K V → Nat
  | .hleaf _ _ => 1
  | _ => 0

/-- Indicator of a `Node` handle. -/
def nodeB : Handle K V → Nat
  | .hnode _ => 1
  | _ => 0

mutual

/-- Strengthened no-singleton invariant: every node below this handle has
two or more leaf children or at least one node child (this excludes both
the forbidden one-leaf-no-node nodes and empty non-root nodes, which the
algorithm never creates). -/
def hGood : Handle K V → Bool
  | .hnone => true
  | .hleaf _ _ => true
  | .hnode c =>
    (decide (2 ≤ leafCount c) || decide (1 ≤ nodeCount c)) && sGood c

/-- Strengthened no-singleton invariant for all nodes below a slot
array (the array itself is the root and exempt). -/
def sGood : List (Handle K V) → Bool
  | [] => true
  | x :: t => hGood x && sGood t

end

theorem leafCount_set :
    ∀ (l : List (Handle K V)) (s : Nat) (x : Handle K V), s < l.length →
      leafCount (l.set s x) + leafB (l.getD s .hnone) =
        leafCount l + leafB x := by
  intro l
  induction l with
  | nil => intro s x hs; simp at hs
  | cons a t ih =>
    intro s x hs
    cases s with
    | zero =>
      cases a <;> cases x <;>
        simp [List.set, getD_cons_zero, leafCount, leafB]
    | succ m =>
      have := ih m x (Nat.lt_of_succ_lt_succ hs)
      cases a <;>
        simp only [List.set, getD_cons_succ, leafCount] <;> omega

theorem nodeCount_set :
    ∀ (l : List (Handle K V)) (s : Nat) (x : Handle K V), s < l.length →
      nodeCount (l.set s x) + nodeB (l.getD s .hnone) =
        nodeCount l + nodeB x := by
  intro l
  induction l with
  | nil => intro s x hs; simp at hs
  | cons a t ih =>
    intro s x hs
    cases s with
    | zero =>
      cases a <;> cases x <;>
        simp [List.set, getD_cons_zero, nodeCount, nodeB]
    | succ m =>
      have := ih m x (Nat.lt_of_succ_lt_succ hs)
      cases a <;>
        simp only [List.set, getD_cons_succ, nodeCount] <;> omega

theorem nodeCount_pos_of_getD {l : List (Handle K V)} {s : Nat}
    {c : List (Handle K V)} (h : l.getD s .hnone = .hnode c) :
    1 ≤ nodeCount l := by
  induction l generalizing s with
  | nil => cases s <;> cases h
  | cons a t ih =>
    cases s with
    | zero =>
      rw [getD_cons_zero] at h
      subst h
      simp [nodeCount]
    | succ m =>
      rw [getD_cons_succ] at h
      have := ih h
      cases a <;> simp [nodeCount] <;> omega

theorem leafCount_pos_of_getD {l : List (Handle K V)} {s : Nat}
    {k : K} {v : V} (h : l.getD s .hnone = .hleaf k v) :
    1 ≤ leafCount l := by
  induction l generalizing s with
  | nil => cases s <;> cases h
  | cons a t ih =>
    cases s with
    | zero =>
      rw [getD_cons_zero] at h
      subst h
      simp [leafCount]
    | succ m =>
      rw [getD_cons_succ] at h
      have := ih h
      cases a <;> simp [leafCount] <;> omega

theorem hGood_of_mem {x : Handle K V} {l : List (Handle K V)} (hm : x ∈ l)
    (hg : sGood l = true) : hGood x = true := by
  induction l with
  | nil => cases hm
  | cons a t ih =>
    simp only [sGood, Bool.and_eq_true] at hg
    rcases List.mem_cons.mp hm with h | h
    · subst h; exact hg.1
    · exact ih h hg.2

theorem sGood_getD {l : List (Handle K V)} (hg : sGood l = true) (j : Nat) :
    hGood (l.getD j .hnone) = true := by
  rcases getD_eq_default_or_mem l j .hnone with h | h
  · rw [h]; rfl
  · exact hGood_of_mem h hg

theorem sGood_set {l : List (Handle K V)} (hg : sGood l = true)
    {x : Handle K V} (hx : hGood x = true) (j : Nat) :
    sGood (l.set j x) = true := by
  induction l generalizing j with
  | nil => rfl
  | cons a t ih =>
    simp only [sGood, Bool.and_eq_true] at hg
    cases j with
    | zero => simp only [List.set, sGood, Bool.and_eq_true]; exact ⟨hx, hg.2⟩
    | succ m =>
      simp only [List.set, sGood, Bool.and_eq_true]
      exact ⟨hg.1, ih hg.2 m⟩

mutual

theorem hGood_imp_hNoSingle : ∀ x : Handle K V,
    hGood x = true → hNoSingle x = true
  | .hnone, _ => rfl
  | .hleaf _ _, _ => rfl
  | .hnode c, hg => by
    simp only [hGood, Bool.and_eq_true] at hg
    simp only [hNoSingle, Bool.and_eq_true]
    refine ⟨?_, sGood_imp_sNoSingle c hg.2⟩
    have hg1 : 2 ≤ leafCount c ∨ 1 ≤ nodeCount c := by
      have h' := hg.1
      rw [Bool.or_eq_true] at h'
      rcases h' with h | h
      · exact Or.inl (of_decide_eq_true h)
      · exact Or.inr (of_decide_eq_true h)
    by_cases h1 : leafCount c = 1
    · have hnc : nodeCount c ≠ 0 := by omega
      simp [h1, hnc]
    · simp [h1]

theorem sGood_imp_sNoSingle : ∀ l : List (Handle K V),
    sGood l = true → sNoSingle l = true
  | [], _ => rfl
  | x :: t, hg => by
    simp only [sGood, Bool.and_eq_true] at hg
    simp only [sNoSingle, Bool.and_eq_true]
    exact ⟨hGood_imp_hNoSingle x hg.1, sGood_imp_sNoSingle t hg.2⟩

end

theorem singletonScan_quiet :
    ∀ (l : List (Handle K V)) (i : Nat) (acc : Option Nat),
      leafCount l = 0 → nodeCount l = 0 →
      singletonScan l i acc = some acc := by
  intro l
  induction l with
  | nil => intro i acc _ _; rfl
  | cons a t ih =>
    intro i acc hlc hnc
    cases a with
    | hnone =>
      simp only [leafCount, nodeCount] at hlc hnc
      exact ih (i + 1) acc hlc hnc
    | hleaf k v => simp [leafCount] at hlc
    | hnode c => simp [nodeCount] at hnc

theorem singletonScan_finds :
    ∀ (l : List (Handle K V)) (i : Nat),
      leafCount l = 1 → nodeCount l = 0 →
      ∃ j k v, singletonScan l i none = some (some (i + j)) ∧
        l.getD j .hnone = .hleaf k v := by
  intro l
  induction l with
  | nil => intro i hlc; simp [leafCount] at hlc
  | cons a t ih =>
    intro i hlc hnc
    cases a with
    | hnone =>
      simp only [leafCount, nodeCount] at hlc hnc
      obtain ⟨j, k, v, hscan, hget⟩ := ih (i + 1) hlc hnc
      refine ⟨j + 1, k, v, ?_, hget⟩
      show singletonScan t (i + 1) none = some (some (i + (j + 1)))
      rw [hscan]
      congr 2
      omega
    | hleaf k v =>
      simp only [leafCount, nodeCount] at hlc hnc
      have hlc0 : leafCount t = 0 := by omega
      refine ⟨0, k, v, ?_, rfl⟩
      show singletonScan t (i + 1) (some i) = some (some (i + 0))
      rw [singletonScan_quiet t (i + 1) (some i) hlc0 hnc]
      rfl
    | hnode c => simp [nodeCount] at hnc

/-- If `remove_singleton` declines, the node is not a one-leaf-no-node
singleton. -/
theorem removeSingleton_none [DecidableEq K] {slots : List (Handle K V)}
    (h : removeSingleton slots = none) :
    ¬(leafCount slots = 1 ∧ nodeCount slots = 0) := by
  rintro ⟨hlc, hnc⟩
  obtain ⟨j, k, v, hscan, hget⟩ := singletonScan_finds slots 0 hlc hnc
  simp only [removeSingleton, hscan] at h
  simp only [Nat.zero_add] at h
  rw [hget] at h
  cases h

end Kelvin

namespace Kelvin

variable {K V : Type}

/-- Decidable form of the per-node strengthened invariant. -/
def goodB (slots : List (Handle K V)) : Bool :=
  decide (2 ≤ leafCount slots) || decide (1 ≤ nodeCount slots)

theorem goodB_iff (slots : List (Handle K V)) :
    goodB slots = true ↔ (2 ≤ leafCount slots ∨ 1 ≤ nodeCount slots) := by
  simp [goodB]

theorem hGood_node (c : List (Handle K V)) :
    hGood (Handle.hnode c) = (goodB c && sGood c) := rfl

theorem leafCount_empty16 : leafCount (empty16 (K := K) (V := V)) = 0 := rfl

theorem nodeCount_empty16 : nodeCount (empty16 (K := K) (V := V)) = 0 := rfl

theorem sGood_empty16 : sGood (empty16 (K := K) (V := V)) = true := rfl

theorem leafB_le_one (x : Handle K V) : leafB x ≤ 1 := by
  cases x <;> simp [leafB]

theorem nodeB_le_one (x : Handle K V) : nodeB x ≤ 1 := by
  cases x <;> simp [nodeB]

/-- The fresh node built by a split — two inserts with distinct keys into
an empty node — satisfies the strengthened invariant and is itself good
(two leaves, or a single node child from a deeper split). -/
theorem splitPair_good [DecidableEq K] (hashK : K → Nat) (hashN : Nat → Nat) :
    ∀ (fuel depth h h' : Nat) (k k' : K) (v v' : V)
      (t t' : List (Handle K V)) (r₁ r' : Option V),
      k ≠ k' →
      sub_insert hashK hashN fuel depth h k v empty16 = some (t, r₁) →
      sub_insert hashK hashN fuel depth h' k' v' t = some (t', r') →
      goodB t' = true ∧ sGood t' = true := by
  intro fuel
  induction fuel with
  | zero => intro depth h h' k k' v v' t t' r₁ r' hne h1 h2; cases h1
  | succ fuel ih =>
    intro depth h h' k k' v v' t t' r₁ r' hne h1 h2
    rw [sub_insert_empty hashK hashN fuel depth h k v] at h1
    obtain ⟨ht, hr⟩ := some_pair_eq h1
    subst ht
    have hsE : calculate_slot hashN h depth <
        (empty16 (K := K) (V := V)).length := by
      rw [empty16_length]; exact calculate_slot_lt hashN h depth
    simp only [sub_insert] at h2
    by_cases hss : calculate_slot hashN h' depth = calculate_slot hashN h depth
    · rw [hss] at h2
      simp only [getD_set_self hsE] at h2
      rw [if_neg hne] at h2
      split at h2
      · cases h2
      · next n1 r1' heq1 =>
        split at h2
        · cases h2
        · next n2 r2' heq2 =>
          obtain ⟨ht', hr'⟩ := some_pair_eq h2
          subst ht'
          have hIH := ih (depth + 1) h' (hashK k) k' k v' v n1 n2 r1' r2'
            (fun hc => hne hc.symm) heq1 heq2
          have hlen0 : ((empty16 (K := K) (V := V)).set
              (calculate_slot hashN h depth) (.hleaf k v)).length = 16 := by
            rw [length_set, empty16_length]
          have hlen1 : (((empty16 (K := K) (V := V)).set
              (calculate_slot hashN h depth) (.hleaf k v)).set
              (calculate_slot hashN h depth) Handle.hnone).length = 16 := by
            rw [length_set, hlen0]
          refine ⟨?_, ?_⟩
          · rw [goodB_iff]
            right
            have hnc := nodeCount_set (((empty16 (K := K) (V := V)).set
                (calculate_slot hashN h depth) (.hleaf k v)).set
                (calculate_slot hashN h depth) Handle.hnone)
              (calculate_slot hashN h depth) (.hnode n2)
              (by rw [hlen1]; exact calculate_slot_lt hashN h depth)
            rw [getD_set_self (by
              rw [hlen0]
              exact calculate_slot_lt hashN h depth)] at hnc
            simp only [nodeB] at hnc
            omega
          · refine sGood_set (sGood_set (sGood_set sGood_empty16 ?_ _) ?_ _) ?_ _
            · rfl
            · rfl
            · rw [hGood_node, Bool.and_eq_true]
              exact ⟨hIH.1, hIH.2⟩
    · rw [getD_set_ne (fun hc => hss hc.symm), getD_replicate] at h2
      obtain ⟨ht', hr'⟩ := some_pair_eq h2
      subst ht'
      have hsE2 : calculate_slot hashN h' depth <
          ((empty16 (K := K) (V := V)).set (calculate_slot hashN h depth)
            (.hleaf k v)).length := by
        rw [length_set, empty16_length]
        exact calculate_slot_lt hashN h' depth
      refine ⟨?_, sGood_set (sGood_set sGood_empty16
        (show hGood (Handle.hleaf k v) = true from rfl) _)
        (show hGood (Handle.hleaf k' v') = true from rfl) _⟩
      rw [goodB_iff]
      left
      have hlcT := leafCount_set (empty16 (K := K) (V := V))
        (calculate_slot hashN h depth) (.hleaf k v) hsE
      rw [getD_replicate, leafCount_empty16] at hlcT
      have hlcT' := leafCount_set ((empty16 (K := K) (V := V)).set
          (calculate_slot hashN h depth) (.hleaf k v))
        (calculate_slot hashN h' depth) (.hleaf k' v') hsE2
      rw [getD_set_ne (fun hc => hss hc.symm), getD_replicate] at hlcT'
      simp only [leafB] at hlcT hlcT'
      omega

/-- Insertion preserves the strengthened no-singleton invariant, and its
effect on the direct leaf/node counts of the node it runs on is one of:
new leaf (nothing expelled), replaced leaf (value expelled), split
(leaf becomes node), or recursion (counts unchanged). -/
theorem sub_insert_good [DecidableEq K] (hashK : K → Nat)
    (hashN : Nat → Nat) :
    ∀ (fuel depth h : Nat) (k : K) (v : V)
      (slots slots' : List (Handle K V)) (r : Option V),
      sub_insert hashK hashN fuel depth h k v slots = some (slots', r) →
      slots.length = 16 → sWf slots = true → sGood slots = true →
      (sGood slots' = true ∧
       (goodB slots = true → goodB slots' = true) ∧
       (r = none → goodB slots' = true ∨
          (leafCount slots' = leafCount slots + 1 ∧
           nodeCount slots' = nodeCount slots)) ∧
       (∀ v₀, r = some v₀ → leafCount slots' = leafCount slots ∧
          nodeCount slots' = nodeCount slots)) := by
  intro fuel
  induction fuel with
  | zero => intro depth h k v slots slots' r hins; cases hins
  | succ fuel ih =>
    intro depth h k v slots slots' r hins hlen hwf hgood
    have hs : calculate_slot hashN h depth < slots.length := by
      rw [hlen]; exact calculate_slot_lt hashN h depth
    simp only [sub_insert] at hins
    split at hins
    · next heq =>
      obtain ⟨h1, h2⟩ := some_pair_eq hins
      subst h1; subst h2
      have hlc := leafCount_set slots (calculate_slot hashN h depth)
        (.hleaf k v) hs
      have hnc := nodeCount_set slots (calculate_slot hashN h depth)
        (.hleaf k v) hs
      rw [heq] at hlc hnc
      simp only [leafB, nodeB] at hlc hnc
      refine ⟨sGood_set hgood
        (show hGood (Handle.hleaf k v) = true from rfl) _, ?_, ?_, ?_⟩
      · intro hg
        rw [goodB_iff] at hg ⊢
        omega
      · intro _
        right
        omega
      · intro v₀ hv; cases hv
    · next k' v' heq =>
      split at hins
      · next heqk =>
        obtain ⟨h1, h2⟩ := some_pair_eq hins
        subst h1; subst h2
        have hlc := leafCount_set slots (calculate_slot hashN h depth)
          (.hleaf k v) hs
        have hnc := nodeCount_set slots (calculate_slot hashN h depth)
          (.hleaf k v) hs
        rw [heq] at hlc hnc
        simp only [leafB, nodeB] at hlc hnc
        refine ⟨sGood_set hgood
          (show hGood (Handle.hleaf k v) = true from rfl) _, ?_, ?_, ?_⟩
        · intro hg
          rw [goodB_iff] at hg ⊢
          omega
        · intro hc; cases hc
        · intro v₀ _
          omega
      · next heqk =>
        split at hins
        · cases hins
        · next n1 r1 heq1 =>
          split at hins
          · cases hins
          · next n2 r2 heq2 =>
            obtain ⟨h1, h2⟩ := some_pair_eq hins
            subst h1; subst h2
            have hsp := splitPair_good hashK hashN fuel (depth + 1) h
              (hashK k') k k' v v' n1 n2 r1 r2
              (fun hc => heqk hc.symm) heq1 heq2
            have hlen0 : (slots.set (calculate_slot hashN h depth)
                Handle.hnone).length = 16 := by rw [length_set, hlen]
            have hs0 : calculate_slot hashN h depth <
                (slots.set (calculate_slot hashN h depth)
                  Handle.hnone).length := by
              rw [hlen0]; exact calculate_slot_lt hashN h depth
            have hlc0 := leafCount_set slots (calculate_slot hashN h depth)
              Handle.hnone hs
            have hnc0 := nodeCount_set slots (calculate_slot hashN h depth)
              Handle.hnone hs
            rw [heq] at hlc0 hnc0
            have hlc1 := leafCount_set
              (slots.set (calculate_slot hashN h depth) Handle.hnone)
              (calculate_slot hashN h depth) (.hnode n2) hs0
            have hnc1 := nodeCount_set
              (slots.set (calculate_slot hashN h depth) Handle.hnone)
              (calculate_slot hashN h depth) (.hnode n2) hs0
            rw [getD_set_self hs] at hlc1 hnc1
            simp only [leafB, nodeB] at hlc0 hnc0 hlc1 hnc1
            refine ⟨?_, ?_, ?_, ?_⟩
            · refine sGood_set (sGood_set hgood
                (show hGood (Handle.hnone (K := K) (V := V)) = true
                  from rfl) _) ?_ _
              rw [hGood_node, Bool.and_eq_true]
              exact ⟨hsp.1, hsp.2⟩
            · intro _
              rw [goodB_iff]
              omega
            · intro _
              left
              rw [goodB_iff]
              omega
            · intro v₀ hv; cases hv
    · next c heq =>
      split at hins
      · cases hins
      · next c' r' heqr =>
        obtain ⟨h1, h2⟩ := some_pair_eq hins
        subst h1; subst h2
        have hcwf : hWf (Handle.hnode c) = true := by
          rw [← heq]; exact sWf_getD hwf _
        simp only [hWf, Bool.and_eq_true, beq_iff_eq] at hcwf
        have hcgood : hGood (Handle.hnode c) = true := by
          rw [← heq]; exact sGood_getD hgood _
        rw [hGood_node, Bool.and_eq_true] at hcgood
        have hIH := ih (depth + 1) h k v c c' r heqr hcwf.1 hcwf.2 hcgood.2
        have hlc := leafCount_set slots (calculate_slot hashN h depth)
          (.hnode c') hs
        have hnc := nodeCount_set slots (calculate_slot hashN h depth)
          (.hnode c') hs
        rw [heq] at hlc hnc
        simp only [leafB, nodeB] at hlc hnc
        have hncpos := nodeCount_pos_of_getD heq
        refine ⟨?_, ?_, ?_, ?_⟩
        · refine sGood_set hgood ?_ _
          rw [hGood_node, Bool.and_eq_true]
          exact ⟨hIH.2.1 hcgood.1, hIH.1⟩
        · intro _
          rw [goodB_iff]
          omega
        · intro _
          left
          rw [goodB_iff]
          omega
        · intro v₀ _
          omega

end Kelvin

namespace Kelvin

variable {K V : Type}

/-- Removal preserves the strengthened no-singleton invariant; along the
`Removed::Leaf` path a good non-root node stays good (its singleton check
just declined), and `Removed::Collapse` only arises at positive depth. -/
theorem subRemove_good [DecidableEq K] (hashN : Nat → Nat) :
    ∀ (fuel depth h : Nat) (k : K) (slots slots' : List (Handle K V))
      (r : Removed K V),
      subRemove hashN fuel depth h k slots = some (slots', r) →
      slots.length = 16 → sWf slots = true → sGood slots = true →
      (sGood slots' = true ∧
       (r = .rnone → slots' = slots) ∧
       (∀ rk rv, r = .rleaf rk rv → 0 < depth →
          goodB slots = true → goodB slots' = true) ∧
       (∀ rk rv ik iv, r = .rcollapse rk rv ik iv → 0 < depth)) := by
  intro fuel
  induction fuel with
  | zero => intro depth h k slots slots' r hrem; cases hrem
  | succ fuel ih =>
    intro depth h k slots slots' r hrem hlen hwf hgood
    have hs : calculate_slot hashN h depth < slots.length := by
      rw [hlen]; exact calculate_slot_lt hashN h depth
    simp only [subRemove] at hrem
    split at hrem
    · next heq =>
      obtain ⟨h1, h2⟩ := some_pair_eq hrem
      subst h1; subst h2
      refine ⟨hgood, fun _ => rfl, ?_, ?_⟩
      · intro rk rv hc
        cases hc
      · intro rk rv ik iv hc
        cases hc
    · next k' v' heq =>
      split at hrem
      · next heqk =>
        injection hrem with h5
        have hlc0 := leafCount_set slots (calculate_slot hashN h depth)
          Handle.hnone hs
        have hnc0 := nodeCount_set slots (calculate_slot hashN h depth)
          Handle.hnone hs
        rw [heq] at hlc0 hnc0
        simp only [leafB, nodeB] at hlc0 hnc0
        have hg0 : sGood (slots.set (calculate_slot hashN h depth)
            Handle.hnone) = true := sGood_set hgood
          (show hGood (Handle.hnone (K := K) (V := V)) = true from rfl) _
        simp only [afterRemove] at h5
        split at h5
        · next hdep =>
          split at h5
          · next ik iv s'' heq2 =>
            obtain ⟨idx, hidx, hset⟩ := removeSingleton_spec heq2
            injection h5 with e1 e2
            subst hset
            refine ⟨?_, ?_, ?_, ?_⟩
            · rw [← e1]
              exact sGood_set hg0
                (show hGood (Handle.hnone (K := K) (V := V)) = true
                  from rfl) _
            · intro hc; rw [← e2] at hc; cases hc
            · intro rk rv hc; rw [← e2] at hc; cases hc
            · intro rk rv ik2 iv2 _; exact hdep
          · next heq2 =>
            injection h5 with e1 e2
            have hns := removeSingleton_none heq2
            refine ⟨?_, ?_, ?_, ?_⟩
            · rw [← e1]; exact hg0
            · intro hc; rw [← e2] at hc; cases hc
            · intro rk rv _ _ hgb
              rw [← e1]
              rw [goodB_iff] at hgb ⊢
              omega
            · intro rk rv ik iv hc; rw [← e2] at hc; cases hc
        · next hdep =>
          injection h5 with e1 e2
          refine ⟨?_, ?_, ?_, ?_⟩
          · rw [← e1]; exact hg0
          · intro hc; rw [← e2] at hc; cases hc
          · intro rk rv _ hd; omega
          · intro rk rv ik iv hc; rw [← e2] at hc; cases hc
      · next heqk =>
        obtain ⟨h1, h2⟩ := some_pair_eq hrem
        subst h1; subst h2
        refine ⟨hgood, fun _ => rfl, ?_, ?_⟩
        · intro rk rv hc
          cases hc
        · intro rk rv ik iv hc
          cases hc
    · next c heq =>
      have hcwf : hWf (Handle.hnode c) = true := by
        rw [← heq]; exact sWf_getD hwf _
      simp only [hWf, Bool.and_eq_true, beq_iff_eq] at hcwf
      have hcgood : hGood (Handle.hnode c) = true := by
        rw [← heq]; exact sGood_getD hgood _
      rw [hGood_node, Bool.and_eq_true] at hcgood
      have hncpos := nodeCount_pos_of_getD heq
      split at hrem
      · cases hrem
      · next c₁ rk rv ik iv heqr =>
        injection hrem with h5
        have hlc0 := leafCount_set slots (calculate_slot hashN h depth)
          (.hleaf ik iv) hs
        have hnc0 := nodeCount_set slots (calculate_slot hashN h depth)
          (.hleaf ik iv) hs
        rw [heq] at hlc0 hnc0
        simp only [leafB, nodeB] at hlc0 hnc0
        have hg0 : sGood (slots.set (calculate_slot hashN h depth)
            (.hleaf ik iv)) = true := sGood_set hgood
          (show hGood (Handle.hleaf ik iv) = true from rfl) _
        simp only [afterRemove] at h5
        split at h5
        · next hdep =>
          split at h5
          · next ik2 iv2 s'' heq2 =>
            obtain ⟨idx, hidx, hset⟩ := removeSingleton_spec heq2
            injection h5 with e1 e2
            subst hset
            refine ⟨?_, ?_, ?_, ?_⟩
            · rw [← e1]
              exact sGood_set hg0
                (show hGood (Handle.hnone (K := K) (V := V)) = true
                  from rfl) _
            · intro hc; rw [← e2] at hc; cases hc
            · intro rk2 rv2 hc; rw [← e2] at hc; cases hc
            · intro rk2 rv2 ik3 iv3 _; exact hdep
          · next heq2 =>
            injection h5 with e1 e2
            have hns := removeSingleton_none heq2
            refine ⟨?_, ?_, ?_, ?_⟩
            · rw [← e1]; exact hg0
            · intro hc; rw [← e2] at hc; cases hc
            · intro rk2 rv2 _ _ hgb
              rw [← e1]
              rw [goodB_iff] at hgb ⊢
              omega
            · intro rk2 rv2 ik3 iv3 hc; rw [← e2] at hc; cases hc
        · next hdep =>
          injection h5 with e1 e2
          refine ⟨?_, ?_, ?_, ?_⟩
          · rw [← e1]; exact hg0
          · intro hc; rw [← e2] at hc; cases hc
          · intro rk2 rv2 _ hd; omega
          · intro rk2 rv2 ik3 iv3 hc; rw [← e2] at hc; cases hc
      · next c' a hnc2 heqr =>
        obtain ⟨h1, h2⟩ := some_pair_eq hrem
        subst h1; subst h2
        have hIH := ih (depth + 1) h k c c' r heqr hcwf.1 hcwf.2 hcgood.2
        have hlc := leafCount_set slots (calculate_slot hashN h depth)
          (.hnode c') hs
        have hnc := nodeCount_set slots (calculate_slot hashN h depth)
          (.hnode c') hs
        rw [heq] at hlc hnc
        simp only [leafB, nodeB] at hlc hnc
        have hgc' : goodB c' = true := by
          cases r with
          | rnone =>
            rw [hIH.2.1 rfl]
            exact hcgood.1
          | rleaf rk rv =>
            exact hIH.2.2.1 rk rv rfl (Nat.succ_pos depth) hcgood.1
          | rcollapse rk rv ik iv =>
            exact absurd rfl (fun hc => hnc2 rk rv ik iv hc)
        refine ⟨?_, ?_, ?_, ?_⟩
        · refine sGood_set hgood ?_ _
          rw [hGood_node, Bool.and_eq_true]
          exact ⟨hgc', hIH.1⟩
        · intro hc
          rw [hIH.2.1 hc]
          have := set_getD_self slots (calculate_slot hashN h depth)
          rw [heq] at this
          exact this
        · intro rk rv _ _ hgb
          rw [goodB_iff] at hgb ⊢
          omega
        · intro rk rv ik iv hc
          exact absurd hc (fun hc2 => hnc2 rk rv ik iv hc2)

/-- A single map operation, for expressing claims about arbitrary
sequences of inserts and removes. -/
inductive MapOp (K V : Type) where
  | ins (k : K) (v : V) : MapOp K V
  | del (k : K) : MapOp K V

/-- Apply a sequence of operations, starting from a given tree; `none`
when an operation runs out of fuel (or would hit the `unreachable!()`). -/
def applyOps [DecidableEq K] (hashK : K → Nat) (hashN : Nat → Nat)
    (fuel : Nat) : List (MapOp K V) → List (Handle K V) →
      Option (List (Handle K V))
  | [], t => some t
  | .ins k v :: ops, t =>
    match insert hashK hashN fuel k v t with
    | none => none
    | some (t', _) => applyOps hashK hashN fuel ops t'
  | .del k :: ops, t =>
    match remove hashK hashN fuel k t with
    | none => none
    | some none => none
    | some (some (t', _)) => applyOps hashK hashN fuel ops t'

theorem applyOps_good [DecidableEq K] (hashK : K → Nat) (hashN : Nat → Nat)
    (fuel : Nat) :
    ∀ (ops : List (MapOp K V)) (t t' : List (Handle K V)),
      applyOps hashK hashN fuel ops t = some t' →
      t.length = 16 → sWf t = true → sGood t = true →
      t'.length = 16 ∧ sWf t' = true ∧ sGood t' = true := by
  intro ops
  induction ops with
  | nil =>
    intro t t' hap hlen hwf hgood
    cases hap
    exact ⟨hlen, hwf, hgood⟩
  | cons op ops ih =>
    intro t t' hap hlen hwf hgood
    cases op with
    | ins k v =>
      simp only [applyOps] at hap
      split at hap
      · cases hap
      · next t₁ r₁ heqi =>
        have heqi' : sub_insert hashK hashN fuel 0 (hashK k) k v t =
            some (t₁, r₁) := heqi
        have w1 := sub_insert_wf hashK hashN fuel 0 (hashK k) k v t t₁ r₁
          heqi' hlen hwf
        have g1 := sub_insert_good hashK hashN fuel 0 (hashK k) k v t t₁ r₁
          heqi' hlen hwf hgood
        exact ih t₁ t' hap w1.1 w1.2 g1.1
    | del k =>
      simp only [applyOps] at hap
      split at hap
      · cases hap
      · cases hap
      · next t₁ r₁ heqr =>
        simp only [remove] at heqr
        split at heqr
        · cases heqr
        · next t₂ heq2 =>
          injection heqr with h6
          injection h6 with h6b
          injection h6b with h7 h8
          subst h7
          have w1 := subRemove_wf hashN fuel 0 (hashK k) k t t₂ .rnone
            heq2 hlen hwf
          have g1 := subRemove_good hashN fuel 0 (hashK k) k t t₂ .rnone
            heq2 hlen hwf hgood
          exact ih t₂ t' hap w1.1 w1.2 g1.1
        · next t₂ rk rv heq2 =>
          injection heqr with h6
          injection h6 with h6b
          injection h6b with h7 h8
          subst h7
          have w1 := subRemove_wf hashN fuel 0 (hashK k) k t t₂
            (.rleaf rk rv) heq2 hlen hwf
          have g1 := subRemove_good hashN fuel 0 (hashK k) k t t₂
            (.rleaf rk rv) heq2 hlen hwf hgood
          exact ih t₂ t' hap w1.1 w1.2 g1.1
        · cases heqr

/-- C3: after any sequence of insert and remove operations on an
initially empty HAMT (each completing within its fuel), no non-root node
holds exactly one leaf and no nodes; indeed every non-root node has two
or more leaf children or at least one node child. -/
theorem C3_no_singleton [DecidableEq K] (hashK : K → Nat)
    (hashN : Nat → Nat) (fuel : Nat) (ops : List (MapOp K V))
    (t' : List (Handle K V))
    (hap : applyOps hashK hashN fuel ops empty16 = some t') :
    sNoSingle t' = true ∧ sGood t' = true := by
  have h := applyOps_good hashK hashN fuel ops empty16 t' hap
    empty16_length rfl sGood_empty16
  exact ⟨sGood_imp_sNoSingle t' h.2.2, h.2.2⟩

/-- Witness for C3: two colliding-prefix inserts force a split, removal
of one forces a collapse; the invariant holds at every step's result. -/
theorem C3_witness :
    applyOps (fun n => n) (fun n => n) 3
      [MapOp.ins 1 10, MapOp.ins 17 20, MapOp.del 1]
      (empty16 : List (Handle Nat Nat)) =
      some (empty16.set 1 (.hleaf 17 20)) ∧
    sNoSingle ((empty16 : List (Handle Nat Nat)).set 1 (.hleaf 17 20)) =
      true :=
  ⟨by rfl,
   (C3_no_singleton (fun n => n) (fun n => n) 3
     [MapOp.ins 1 10, MapOp.ins 17 20, MapOp.del 1]
     (empty16.set 1 (.hleaf 17 20)) (by rfl)).1⟩

end Kelvin

namespace Kelvin

variable {K V : Type}

/-- Non-faulting presence check, `handle_type() != HandleType::None` in
`HAMT::persist`. -/
def isPresent : Handle K V → Bool
  | .hnone => false
  | _ => true

/-- Accumulating loop of `HAMT::persist` that computes the 16-bit
presence mask: `mask |= 1 << i` for every slot whose handle type is not
`None`. -/
def maskGo (slots : List (Handle K V)) : Nat → Nat → Nat → Nat
  | 0, _, m => m
  | fuel + 1, i, m =>
    maskGo slots fuel (i + 1)
      (if isPresent (slots.getD i .hnone) then m ||| (1 <<< i) else m)

/-- The presence mask written by `HAMT::persist`. -/
def maskOf (slots : List (Handle K V)) : Nat := maskGo slots 16 0 0

/-- Serialised token stream.  Modelled from the spec: a `Handle` is
serialised as a tag byte and payload — an inline leaf body for
`Leaf`, and a content digest for a persisted child node (`Shared`).  The
content-addressed blob store is collapsed into the token itself: a
digest is represented by the node body it addresses (`tshared`), which
is faithful because content addressing makes the digest determine the
body. -/
inductive Tok (K V : Type) where
  | mask (m : Nat) : Tok K V
  | tleaf (k : K) (v : V) : Tok K V
  | tshared (body : List (Tok K V)) : Tok K V

mutual

/-- Serialisation of the present handles of a node in slot order
(the `persist` loop skips slots whose mask bit is clear, which are
exactly the `None` slots). -/
def persistSlots : List (Handle K V) → List (Tok K V)
  | [] => []
  | x :: t => persistHandle x ++ persistSlots t

/-- Tokens contributed by one slot: nothing for `None`, the inline leaf
body for `Leaf`, and the digest of the persisted child node body for
`Node`. -/
def persistHandle : Handle K V → List (Tok K V)
  | .hnone => []
  | .hleaf k v => [.tleaf k v]
  | .hnode c => [.tshared (Tok.mask (maskOf c) :: persistSlots c)]

end

/-- Serialisation of a node body, as written by `HAMT::persist`: the
16-bit presence mask, then each present handle in slot order. -/
def persistNode (slots : List (Handle K V)) : List (Tok K V) :=
  Tok.mask (maskOf slots) :: persistSlots slots

mutual

/-- Restoration of a single handle (`Handle::restore`), modelled from the
spec: a leaf token yields an inline leaf, a digest token yields the node
restored from the addressed body.  `fuel` bounds the recursion depth. -/
def restoreH : Nat → Tok K V → Option (Handle K V)
  | 0, _ => none
  | _ + 1, .tleaf k v => some (.hleaf k v)
  | fuel + 1, .tshared body =>
    match restoreNode fuel body with
    | none => none
    | some slots => some (.hnode slots)
  | _ + 1, .mask _ => none

/-- Restoration of a node body (`HAMT::restore`): read the mask, then for
each of the 16 slots restore a handle when the slot's mask bit is set and
leave `None` otherwise. -/
def restoreNode : Nat → List (Tok K V) → Option (List (Handle K V))
  | 0, _ => none
  | fuel + 1, .mask m :: rest => restoreGo fuel m 0 16 rest
  | _ + 1, _ => none

/-- The slot loop of `HAMT::restore`. -/
def restoreGo : Nat → Nat → Nat → Nat → List (Tok K V) →
    Option (List (Handle K V))
  | 0, _, _, _, _ => none
  | _ + 1, _, _, 0, _ => some []
  | fuel + 1, m, i, cnt + 1, toks =>
    if m.testBit i then
      match toks with
      | [] => none
      | tok :: rest =>
        match restoreH fuel tok, restoreGo fuel m (i + 1) cnt rest with
        | some hd, some tl => some (hd :: tl)
        | _, _ => none
    else
      match restoreGo fuel m (i + 1) cnt toks with
      | none => none
      | some tl => some (.hnone :: tl)

end

theorem testBit_one (n : Nat) : Nat.testBit 1 n = decide (n = 0) := by
  cases n with
  | zero => rfl
  | succ m =>
    rw [Nat.testBit_succ]
    simp

theorem maskGo_testBit (slots : List (Handle K V)) :
    ∀ (fuel i m j : Nat), (∀ j', i ≤ j' → m.testBit j' = false) →
      (maskGo slots fuel i m).testBit j =
        if i ≤ j ∧ j < i + fuel then isPresent (slots.getD j .hnone)
        else m.testBit j := by
  intro fuel
  induction fuel with
  | zero =>
    intro i m j hm
    rw [if_neg (by omega)]
    rfl
  | succ fuel ih =>
    intro i m j hm
    simp only [maskGo]
    have hm' : ∀ j', i + 1 ≤ j' →
        (if isPresent (slots.getD i .hnone) then m ||| (1 <<< i)
          else m).testBit j' = false := by
      intro j' hj'
      by_cases hp : isPresent (slots.getD i Handle.hnone) = true
      · rw [if_pos hp, Nat.testBit_or, Nat.testBit_shiftLeft, testBit_one,
          hm j' (by omega)]
        have h1 : ¬ (j' - i = 0) := by omega
        simp [h1]
      · rw [if_neg hp]
        exact hm j' (by omega)
    rw [ih (i + 1) _ j hm']
    by_cases hA : i + 1 ≤ j ∧ j < i + 1 + fuel
    · rw [if_pos hA, if_pos (by omega)]
    · rw [if_neg hA]
      by_cases hij : j = i
      · subst hij
        by_cases hp : isPresent (slots.getD j Handle.hnone) = true
        · rw [if_pos hp, if_pos (show j ≤ j ∧ j < j + (fuel + 1) by omega),
            Nat.testBit_or, Nat.testBit_shiftLeft, testBit_one,
            hm j (Nat.le_refl j), hp]
          simp
        · rw [if_neg hp, if_pos (show j ≤ j ∧ j < j + (fuel + 1) by omega),
            hm j (Nat.le_refl j)]
          exact (Bool.of_not_eq_true hp).symm
      · rw [if_neg (show ¬ (i ≤ j ∧ j < i + (fuel + 1)) by omega)]
        by_cases hp : isPresent (slots.getD i Handle.hnone) = true
        · rw [if_pos hp, Nat.testBit_or, Nat.testBit_shiftLeft, testBit_one]
          have h1 : ¬ (j ≥ i) ∨ ¬ (j - i = 0) := by omega
          rcases h1 with h1 | h1 <;> simp [h1]
        · rw [if_neg hp]

theorem maskOf_testBit (slots : List (Handle K V)) (j : Nat) :
    (maskOf slots).testBit j =
      if j < 16 then isPresent (slots.getD j .hnone) else false := by
  have h := maskGo_testBit slots 16 0 0 j (fun j' _ => Nat.zero_testBit j')
  rw [maskOf, h]
  by_cases hj : j < 16
  · rw [if_pos (by omega), if_pos hj]
  · rw [if_neg (by omega), if_neg hj]
    exact Nat.zero_testBit j

theorem persistSlots_length :
    ∀ l : List (Handle K V),
      (persistSlots l).length = leafCount l + nodeCount l := by
  intro l
  induction l with
  | nil => rfl
  | cons a t ih =>
    cases a <;>
      simp [persistSlots, persistHandle, leafCount, nodeCount, ih] <;> omega

end Kelvin

namespace Kelvin

variable {K V : Type}

theorem isPresent_iff (h : Handle K V) :
    isPresent h = true ↔ h ≠ .hnone := by
  cases h <;> simp [isPresent]

theorem restoreGo_step_absent {m i cnt fuel : Nat} {toks : List (Tok K V)}
    {tl : List (Handle K V)} (hbit : m.testBit i = false)
    (hG : restoreGo fuel m (i + 1) cnt toks = some tl) :
    restoreGo (fuel + 1) m i (cnt + 1) toks = some (Handle.hnone :: tl) := by
  simp only [restoreGo, hbit, Bool.false_eq_true, if_false, hG]

theorem restoreGo_step_present {m i cnt fuel : Nat} {tok : Tok K V}
    {rest : List (Tok K V)} {hd : Handle K V} {tl : List (Handle K V)}
    (hbit : m.testBit i = true)
    (hH : restoreH fuel tok = some hd)
    (hG : restoreGo fuel m (i + 1) cnt rest = some tl) :
    restoreGo (fuel + 1) m i (cnt + 1) (tok :: rest) = some (hd :: tl) := by
  simp only [restoreGo, hbit, if_true, hH, hG]

theorem restoreH_shared {fuel : Nat} {body : List (Tok K V)}
    {c : List (Handle K V)} (h : restoreNode fuel body = some c) :
    restoreH (fuel + 1) (.tshared body) = some (.hnode c) := by
  simp only [restoreH, h]

theorem restoreNode_mask {fuel m : Nat} {rest : List (Tok K V)} :
    restoreNode (fuel + 1) (.mask m :: rest) = restoreGo fuel m 0 16 rest :=
  rfl

/-- Round trip of the slot loop: restoring with the mask produced by
`persist` from the token stream produced by `persist` rebuilds exactly the
original slot list, for any fuel above the stated bound. -/
theorem restoreGo_roundtrip :
    ∀ n : Nat, ∀ l : List (Handle K V), sheight l ≤ n → sWf l = true →
      ∀ m i fuel,
        (∀ j, j < l.length →
          m.testBit (i + j) = isPresent (l.getD j .hnone)) →
        l.length + 19 * n + 1 ≤ fuel →
        restoreGo fuel m i l.length (persistSlots l) = some l := by
  intro n
  induction n using Nat.strong_induction_on with
  | _ n ihn =>
  intro l
  induction l with
  | nil =>
    intro _ _ m i fuel _ hfuel
    obtain ⟨f, rfl⟩ : ∃ f, fuel = f + 1 := ⟨fuel - 1, by omega⟩
    rfl
  | cons x t iht =>
    intro hht hwf m i fuel hbits hfuel
    obtain ⟨f, rfl⟩ : ∃ f, fuel = f + 1 := ⟨fuel - 1, by omega⟩
    have hx : m.testBit (i + 0) = isPresent ((x :: t).getD 0 .hnone) :=
      hbits 0 (by simp)
    rw [Nat.add_zero] at hx
    have hht' : sheight t ≤ n :=
      Nat.le_trans (Nat.le_max_right (hheight x) (sheight t)) hht
    have hwf' : sWf t = true := by
      simp only [sWf, Bool.and_eq_true] at hwf
      exact hwf.2
    have hwfx : hWf x = true := by
      simp only [sWf, Bool.and_eq_true] at hwf
      exact hwf.1
    have hbits' : ∀ j, j < t.length →
        m.testBit (i + 1 + j) = isPresent (t.getD j .hnone) := by
      intro j hj
      have h0 := hbits (j + 1) (by simp only [List.length_cons]; omega)
      rw [show i + (j + 1) = i + 1 + j by omega] at h0
      exact h0
    have hlen : (x :: t).length = t.length + 1 := rfl
    rw [hlen] at hfuel
    cases x with
    | hnone =>
      have hrec := iht hht' hwf' m (i + 1) f hbits' (by omega)
      have hx0 : m.testBit i = false := by rw [hx]; rfl
      rw [hlen]
      simp only [persistSlots, persistHandle, List.nil_append]
      exact restoreGo_step_absent hx0 hrec
    | hleaf k v =>
      obtain ⟨f1, rfl⟩ : ∃ f1, f = f1 + 1 := ⟨f - 1, by omega⟩
      have hrec := iht hht' hwf' m (i + 1) (f1 + 1) hbits' (by omega)
      have hx0 : m.testBit i = true := by rw [hx]; rfl
      rw [hlen]
      simp only [persistSlots, persistHandle, List.cons_append,
        List.nil_append]
      exact restoreGo_step_present hx0 rfl hrec
    | hnode c =>
      simp only [hWf, Bool.and_eq_true, beq_iff_eq] at hwfx
      obtain ⟨hc16, hwfc⟩ := hwfx
      have hsc : sheight c + 1 ≤ n := by
        have h1 : hheight (Handle.hnode c) ≤ sheight (.hnode c :: t) :=
          Nat.le_max_left _ _
        simp only [hheight] at h1
        exact Nat.le_trans h1 hht
      obtain ⟨f2, rfl⟩ : ∃ f2, f = f2 + 2 := ⟨f - 2, by omega⟩
      have hrec := iht hht' hwf' m (i + 1) (f2 + 2) hbits' (by omega)
      have hx0 : m.testBit i = true := by rw [hx]; rfl
      have hcbits : ∀ j, j < c.length →
          (maskOf c).testBit (0 + j) = isPresent (c.getD j .hnone) := by
        intro j hj
        rw [Nat.zero_add, maskOf_testBit, if_pos (by omega)]
      have hchild := ihn (sheight c) (by omega) c (Nat.le_refl _) hwfc
        (maskOf c) 0 f2 hcbits (by omega)
      rw [hc16] at hchild
      have hsh : restoreH (f2 + 2)
          (Tok.tshared (Tok.mask (maskOf c) :: persistSlots c)) =
          some (Handle.hnode c) := by
        refine restoreH_shared ?_
        rw [restoreNode_mask]
        exact hchild
      rw [hlen]
      simp only [persistSlots, persistHandle, List.cons_append,
        List.nil_append]
      exact restoreGo_step_present hx0 hsh hrec

/-- Round trip of a whole node body: `restore` applied to the output of
`persist` rebuilds the original 16 slots. -/
theorem restoreNode_roundtrip (slots : List (Handle K V))
    (h16 : slots.length = 16) (hwf : sWf slots = true) (fuel : Nat)
    (hfuel : 18 + 19 * sheight slots ≤ fuel) :
    restoreNode fuel (persistNode slots) = some slots := by
  obtain ⟨f, rfl⟩ : ∃ f, fuel = f + 1 := ⟨fuel - 1, by omega⟩
  have hbits : ∀ j, j < slots.length →
      (maskOf slots).testBit (0 + j) = isPresent (slots.getD j .hnone) := by
    intro j hj
    rw [Nat.zero_add, maskOf_testBit, if_pos (by omega)]
  have h := restoreGo_roundtrip (sheight slots) slots (Nat.le_refl _) hwf
    (maskOf slots) 0 f hbits (by omega)
  rw [h16] at h
  simp only [persistNode, restoreNode]
  exact h

/-- C8: `persist` of a HAMT node writes a 16-bit presence mask whose bit
`i` is set exactly when slot `i` is non-`None` (bits 16 and above are
clear), followed by one token per present handle in slot order; restoring
from the resulting stream succeeds and yields a HAMT that returns the same
answer as the original for every `get(&k)`. -/
theorem C8_persist_restore [DecidableEq K] (hashK : K → Nat)
    (hashN : Nat → Nat) (slots : List (Handle K V))
    (h16 : slots.length = 16) (hwf : sWf slots = true) :
    (∀ i, i < 16 →
      ((maskOf slots).testBit i = true ↔ slots.getD i .hnone ≠ .hnone)) ∧
    (∀ i, 16 ≤ i → (maskOf slots).testBit i = false) ∧
    (persistSlots slots).length = leafCount slots + nodeCount slots ∧
    ∀ fuel, 18 + 19 * sheight slots ≤ fuel →
      ∃ rslots, restoreNode fuel (persistNode slots) = some rslots ∧
        ∀ (k : K) (f : Nat),
          get hashK hashN f k rslots = get hashK hashN f k slots := by
  refine ⟨?_, ?_, persistSlots_length slots, ?_⟩
  · intro i hi
    rw [maskOf_testBit, if_pos hi]
    exact isPresent_iff _
  · intro i hi
    rw [maskOf_testBit, if_neg (by omega)]
  · intro fuel hfuel
    exact ⟨slots, restoreNode_roundtrip slots h16 hwf fuel hfuel,
      fun k f => rfl⟩

/-- Concrete tree used to witness C8: a leaf in slot 1 and a child node
(holding a leaf in slot 3) in slot 2. -/
def c8tree : List (Handle Nat Nat) :=
  (empty16.set 1 (.hleaf 1 10)).set 2 (.hnode (empty16.set 3 (.hleaf 3 30)))

/-- Witness for C8: persist and restore the concrete two-level tree. -/
theorem C8_witness :
    c8tree.length = 16 ∧ sWf c8tree = true ∧
    ((∀ i, i < 16 →
        ((maskOf c8tree).testBit i = true ↔ c8tree.getD i .hnone ≠ .hnone)) ∧
      (∀ i, 16 ≤ i → (maskOf c8tree).testBit i = false) ∧
      (persistSlots c8tree).length = leafCount c8tree + nodeCount c8tree ∧
      ∀ fuel, 18 + 19 * sheight c8tree ≤ fuel →
        ∃ rslots, restoreNode fuel (persistNode c8tree) = some rslots ∧
          ∀ (k : Nat) (f : Nat),
            get (fun n => n) (fun n => n) f k rslots =
              get (fun n => n) (fun n => n) f k c8tree) :=
  ⟨by decide, by decide,
   C8_persist_restore (fun n => n) (fun n => n) c8tree (by decide)
     (by decide)⟩

end Kelvin

namespace Kelvin

variable {K V : Type}

/-- Error-instrumented insertion.  The control flow, slot arithmetic and
state mutation are translated from `HAMT::sub_insert`; the fault source is
modelled from the spec: each call performs one `inner_mut()?` on the
addressed slot, which may return an I/O error (its implementation lives in
`handle.rs`), so a fault budget counts `inner_mut` calls and the call on
which the budget hits zero fails.  `Except.error` carries the slot array
as the error leaves this node: an entry fault leaves it untouched, a fault
inside a split leaves the slot emptied by
`mem::replace(&mut self.0[s], Handle::new_empty())` (the fresh node being
built is a local and is dropped), and a fault inside an existing child
keeps that child's partial mutation in place.  The successful split writes
the finished node back as its last step. -/
def subInsertE [DecidableEq K] (hashK : K → Nat) (hashN : Nat → Nat) :
    Nat → Nat → Nat → Nat → K → V → List (Handle K V) →
    Option (Nat × Except (List (Handle K V)) (List (Handle K V) × Option V))
  | 0, _, _, _, _, _, _ => none
  | fuel + 1, budget, depth, h, k, v, slots =>
    let s := calculate_slot hashN h depth
    match budget with
    | 0 => some (0, .error slots)
    | budget' + 1 =>
      match slots.getD s .hnone with
      | .hnone => some (budget', .ok (slots.set s (.hleaf k v), none))
      | .hleaf k' v' =>
        if k' = k then
          some (budget', .ok (slots.set s (.hleaf k v), some v'))
        else
          match subInsertE hashK hashN fuel budget' (depth + 1) h k v
              empty16 with
          | none => none
          | some (b1, .error _) => some (b1, .error (slots.set s .hnone))
          | some (b1, .ok (n1, _)) =>
            match subInsertE hashK hashN fuel b1 (depth + 1) (hashK k') k'
                v' n1 with
            | none => none
            | some (b2, .error _) => some (b2, .error (slots.set s .hnone))
            | some (b2, .ok (n2, _)) =>
              some (b2, .ok ((slots.set s .hnone).set s (.hnode n2), none))
      | .hnode c =>
        match subInsertE hashK hashN fuel budget' (depth + 1) h k v c with
        | none => none
        | some (b1, .error cE) =>
          some (b1, .error (slots.set s (.hnode cE)))
        | some (b1, .ok (c', r)) =>
          some (b1, .ok (slots.set s (.hnode c'), r))

/-- C7: spec-modelled fault analysis of the split, corrected.  If an
insert has decided on a split (the addressed slot holds a leaf with a
different key, and the entry `inner_mut` succeeded) and an I/O error is
reported, then the slot that held the displaced leaf holds `None` in the
error state — not the original leaf: the split empties the slot with
`mem::replace(&mut self.0[s], Handle::new_empty())` as its first step, and
only the installation of the finished node is the last step. -/
theorem C7_split_fault [DecidableEq K] (hashK : K → Nat) (hashN : Nat → Nat)
    (fuel budget depth h : Nat) (k : K) (v : V) (k' : K) (v' : V)
    (slots eslots : List (Handle K V)) (b' : Nat)
    (hs : slots.getD (calculate_slot hashN h depth) .hnone =
      Handle.hleaf k' v')
    (hne : k' ≠ k) (hb : 0 < budget)
    (herr : subInsertE hashK hashN fuel budget depth h k v slots =
      some (b', Except.error eslots)) :
    eslots = slots.set (calculate_slot hashN h depth) Handle.hnone ∧
    eslots.getD (calculate_slot hashN h depth) .hnone = Handle.hnone := by
  have hlt : calculate_slot hashN h depth < slots.length := by
    by_contra hge
    rw [List.getD_eq_default _ _ (Nat.le_of_not_lt hge)] at hs
    cases hs
  cases fuel with
  | zero => cases herr
  | succ fuel' =>
    obtain ⟨b0, rfl⟩ : ∃ b0, budget = b0 + 1 := ⟨budget - 1, by omega⟩
    simp only [subInsertE] at herr
    split at herr
    · next heq => rw [hs] at heq; cases heq
    · next k2 v2 heq =>
      rw [hs] at heq
      injection heq with hk hv
      subst hk; subst hv
      rw [if_neg hne] at herr
      split at herr
      · cases herr
      · next b1 heq2 =>
        obtain ⟨hb', he⟩ := some_pair_eq herr
        injection he with he'
        subst he'
        exact ⟨rfl, getD_set_self hlt _ _⟩
      · next b1 n1 r heq2 =>
        split at herr
        · cases herr
        · next b2 heq3 =>
          obtain ⟨hb', he⟩ := some_pair_eq herr
          injection he with he'
          subst he'
          exact ⟨rfl, getD_set_self hlt _ _⟩
        · next b2 n2 r2 heq3 =>
          obtain ⟨hb', he⟩ := some_pair_eq herr
          cases he
    · next c heq => rw [hs] at heq; cases heq

end Kelvin

namespace Kelvin

/-- Counterexample to the claim's wording for C7: insert key 16 into a
tree whose slot 0 holds the leaf `(0, 5)` (same slot at depth 0, so a
split is decided), with a fault budget that fails the first `inner_mut`
inside the split.  The insert reports the error, and slot 0 of the
resulting state holds `None`, not the displaced leaf. -/
theorem C7_counterexample :
    (empty16.set 0 (Handle.hleaf (0 : Nat) (5 : Nat))).getD 0 .hnone =
      Handle.hleaf 0 5 ∧
    subInsertE (fun n => n) (fun n => n) 2 1 0 16 16 7
      (empty16.set 0 (.hleaf 0 5)) =
      some (0, Except.error ((empty16.set 0 (.hleaf 0 5)).set 0 .hnone)) ∧
    ((empty16.set 0 (Handle.hleaf (0 : Nat) (5 : Nat))).set 0
        Handle.hnone).getD 0 .hnone = Handle.hnone ∧
    Handle.hnone ≠ Handle.hleaf (0 : Nat) (5 : Nat) :=
  ⟨rfl, rfl, rfl, fun hc => Handle.noConfusion hc⟩

/-- Witness for C7: a split of the leaf `(1, 9)` in slot 1 against the
inserted key 17 faults on its first inner insert; the error state has
slot 1 emptied. -/
theorem C7_witness :
    ((empty16.set 1 (Handle.hleaf (1 : Nat) (9 : Nat))).getD
        (calculate_slot (fun n => n) 17 0) .hnone = Handle.hleaf 1 9) ∧
    ((1 : Nat) ≠ 17) ∧ (0 < 1) ∧
    (subInsertE (fun n => n) (fun n => n) 2 1 0 17 17 8
        (empty16.set 1 (.hleaf 1 9)) =
      some (0, Except.error ((empty16.set 1 (.hleaf 1 9)).set 1 .hnone))) ∧
    ((empty16.set 1 (.hleaf 1 9)).set 1 .hnone =
        (empty16.set 1 (Handle.hleaf (1 : Nat) (9 : Nat))).set
          (calculate_slot (fun n => n) 17 0) Handle.hnone ∧
      ((empty16.set 1 (Handle.hleaf (1 : Nat) (9 : Nat))).set 1
          Handle.hnone).getD
          (calculate_slot (fun n => n) 17 0) .hnone = Handle.hnone) :=
  ⟨rfl, by decide, by decide, rfl,
    C7_split_fault (fun n => n) (fun n => n) 2 1 0 17 17 8 1 9
      (empty16.set 1 (.hleaf 1 9))
      ((empty16.set 1 (.hleaf 1 9)).set 1 .hnone) 0 rfl (by decide)
      (by decide) rfl⟩

end Kelvin
